import Mathlib

/-
Verification of the wu-manber crate (two-byte Wu-Manber multi-pattern matcher).

Shallow embedding of src/lib.rs:
* Byte strings are `List Nat` (the `u8` type bounds values below 256; none of the
  theorems below need that bound, so it is not imposed).
* `usize` arithmetic: additions in the source never overflow for representable
  inputs and are modelled as `Nat` addition; the subtractions `haystack.len() - 1`,
  `pos - 1` and `pos - pat_len` can underflow and are modelled by `wsub`, the
  release-mode (wrapping) semantics of `usize` subtraction, with the following
  `+ 1` / `+ 2` folded through `% 2^64` exactly as the wrapped value would be.
* Indexing into the haystack carries an explicit bounds check; an out-of-bounds
  access is the `Except.error` branch (a Rust panic).  Accesses into the table's
  own vectors (`shift`, `hash`, `prefix`, `needles`) are within bounds whenever
  the table was produced by `new` (the hash of two bytes is at most `HASH_MAX`,
  and stored needle indices are below the needle count), so those vectors are
  embedded as total functions / `getD` lookups.
* `u16` quantities (`hash_fn` results, packed prefixes, shift entries, needle
  indices) never exceed 16 bits for tables built by `new` — `new` rejects more
  than 65535 needles, so `p_idx + 1 ≤ 65535` — hence they are plain `Nat`s.
-/

unseal List.merge List.mergeSort

/-- `2^64`, the modulus of `usize` arithmetic. -/
def USIZE : Nat := 2 ^ 64

/-- `usize` subtraction with release-mode wraparound (operands of any reachable
state are below `2^64`). -/
def wsub (a b : Nat) : Nat := if b ≤ a then a - b else a + USIZE - b

/-- The hash function from the paper: `((a as u16) << 5) + b` (src line 105). -/
def hash_fn (a b : Nat) : Nat := (a <<< 5) + b

/-- `HASH_MAX = (0xFF << 5) + 0xFF` (src line 109). -/
def HASH_MAX : Nat := (0xFF <<< 5) + 0xFF

/-- `Match { start, end, pat_idx }` (src lines 83-88). -/
structure Match where
  start : Nat
  «end» : Nat
  pat_idx : Nat
deriving DecidableEq

/-- The precomputed tables (src lines 52-81).  `shift` and `hash` are `Vec`s in
the source, indexed only at positions `≤ HASH_MAX + 1`; they are embedded as
total functions on the index. -/
structure TwoByteWM where
  needles : List (Nat × List Nat)
  prefixTbl : List Nat
  pat_len : Nat
  shift : Nat → Nat
  hash : Nat → Nat

/-- Point update of an embedded vector. -/
def upd (f : Nat → Nat) (i v : Nat) : Nat → Nat := fun j => if j = i then v else f j

/-- The critical-byte hash `h` of src line 141: hash of the two bytes at
positions `pat_len - 2` and `pat_len - 1` (in bounds: every needle has length
at least `pat_len`). -/
def criticalHash (pat_len : Nat) (p : List Nat) : Nat :=
  hash_fn (p.getD (pat_len - 2) 0) (p.getD (pat_len - 1) 0)

/-- One iteration of the reverse pass building `hash` (src lines 150-156):
write the bucket start, then close the successor bucket if still unset. -/
def hashStep (ch : List Nat → Nat) (acc : Nat → Nat) (pr : Nat × (Nat × List Nat)) :
    Nat → Nat :=
  let h_idx := ch pr.2.2
  let acc1 := upd acc h_idx pr.1
  if acc1 (h_idx + 1) = 0 then upd acc1 (h_idx + 1) (pr.1 + 1) else acc1

/-- The `hash` table: `vec![0; HASH_MAX + 2]` then a reverse pass over the
enumerated sorted needles (src lines 149-156). -/
def buildHash (needles : List (Nat × List Nat)) (ch : List Nat → Nat) : Nat → Nat :=
  (needles.enum.reverse).foldl (hashStep ch) (fun _ => 0)

/-- Inner loop of the `shift` build (src lines 160-163): for each window
position `p_pos` in `0..pat_len-1`, lower `shift[h]` to
`min(shift[h], pat_len - p_pos - 2)`. -/
def shiftStep (pat_len : Nat) (acc : Nat → Nat) (p : List Nat) : Nat → Nat :=
  (List.range (pat_len - 1)).foldl (fun acc2 j =>
    let h := hash_fn (p.getD j 0) (p.getD (j + 1) 0)
    upd acc2 h (min (acc2 h) (pat_len - j - 2))) acc

/-- The `shift` table: `vec![pat_len - 1; HASH_MAX + 1]` lowered over every
needle (src lines 158-164). -/
def buildShift (needles : List (Nat × List Nat)) (pat_len : Nat) : Nat → Nat :=
  needles.foldl (fun acc pr => shiftStep pat_len acc pr.2) (fun _ => pat_len - 1)

/-- Table assembly after validation (src lines 141-172).  `sort_by` on the
critical-byte hash is Rust's stable sort, i.e. stable `mergeSort`; `prefix`
packs the first two bytes of each sorted needle. -/
def mkTable (pats : List (List Nat)) (pat_len : Nat) : TwoByteWM :=
  let needles := pats.enum.mergeSort
    (fun p q => decide (criticalHash pat_len p.2 ≤ criticalHash pat_len q.2))
  { needles := needles
    prefixTbl := needles.map (fun p => ((p.2.getD 0 0) <<< 8) + p.2.getD 1 0)
    pat_len := pat_len
    shift := buildShift needles pat_len
    hash := buildHash needles (criticalHash pat_len) }

/-- The minimum needle length computed at src line 133 (`min().unwrap()`;
`new` has already ruled out the empty set when it is read). -/
def minLen (pats : List (List Nat)) : Nat := ((pats.map List.length).min?).getD 0

/-- `TwoByteWM::new` (src lines 124-173).  The four `panic!`s are the `none`
results, in source order: empty set; more than `u16::MAX = 65535` needles;
minimum length below 2; minimum length above `u16::MAX = 65535`. -/
def new (pats : List (List Nat)) : Option TwoByteWM :=
  if pats.isEmpty then none
  else if 65535 < pats.length then none
  else if minLen pats < 2 then none
  else if 65535 < minLen pats then none
  else some (mkTable pats (minLen pats))

/-- `TwoByteWM::pat` (src lines 112-114); in bounds for every index the scan
produces. -/
def pat (t : TwoByteWM) (i : Nat) : List Nat := (t.needles.getD i (0, [])).2

/-- `TwoByteWM::pat_idx` (src lines 116-118): the original caller index. -/
def pat_idx (t : TwoByteWM) (i : Nat) : Nat := (t.needles.getD i (0, [])).1

/-- The candidate-selection fold shared by the bucket loop of `find_from`
(src lines 191-206): scan indices left to right, keep a verified candidate when
none is held or when strictly shorter than the held one. -/
def selScan (f : Nat → Nat) (keep : Nat → Bool) : List Nat → Option Nat → Option Nat
  | [], found => found
  | i :: rest, found =>
    if keep i then
      selScan f keep rest (some (match found with
        | none => i
        | some j => if f i < f j then i else j))
    else selScan f keep rest found

/-- Verification test of the bucket loop (src lines 193-196): the packed
two-byte prefix must match, then the whole needle is compared against the
haystack slice starting at `s` (the slice is in bounds: `s < hay.length`
whenever this is evaluated). -/
def bucketKeep (t : TwoByteWM) (hay : List Nat) (s pfx : Nat) (i : Nat) : Bool :=
  t.prefixTbl.getD i 0 == pfx && (pat t i).isPrefixOf (hay.drop s)

/-- The bucket loop `for p_idx in self.hash[h]..self.hash[h+1]`
(src lines 191-206). -/
def scanBucket (t : TwoByteWM) (hay : List Nat) (s pfx : Nat) (l : List Nat)
    (found : Option Nat) : Option Nat :=
  selScan (fun i => (pat t i).length) (bucketKeep t hay s pfx) l found

/-- The scan loop of `find_from` (src lines 182-219).  `pos` is the haystack
index aligned with needle index `pat_len - 1`.  The loop bound
`pos <= haystack.len() - 1`, the reads `haystack[pos-1]`, `haystack[pos]`,
and the window reads at `pos - pat_len + 1` / `pos - pat_len + 2` carry the
wrapping subtraction and explicit bounds checks (out of bounds = panic =
`Except.error`). -/
def findLoop (t : TwoByteWM) (hay : List Nat) (pos : Nat) : Except Unit (Option Match) :=
  if hpos : pos ≤ wsub hay.length 1 then
    if hix : wsub pos 1 < hay.length ∧ pos < hay.length then
      let h := hash_fn (hay.getD (wsub pos 1) 0) (hay.getD pos 0)
      if hsh : t.shift h = 0 then
        let s := (wsub pos t.pat_len + 1) % USIZE
        let s2 := (wsub pos t.pat_len + 2) % USIZE
        if hab : s < hay.length ∧ s2 < hay.length then
          let pfx := ((hay.getD s 0) <<< 8) + hay.getD s2 0
          match scanBucket t hay s pfx
              (List.range' (t.hash h) (t.hash (h + 1) - t.hash h)) none with
          | some c => .ok (some ⟨s, s + (pat t c).length, pat_idx t c⟩)
          | none => findLoop t hay (pos + 1)
        else .error ()
      else findLoop t hay (pos + t.shift h)
    else .error ()
  else .ok none
termination_by wsub hay.length 1 + 1 - pos
decreasing_by
  · omega
  · have hpos' : 0 < t.shift (hash_fn (hay.getD (wsub pos 1) 0) (hay.getD pos 0)) :=
      Nat.pos_of_ne_zero hsh
    omega

/-- `TwoByteWM::find_from` (src lines 176-222): start the scan at
`offset + pat_len - 1`. -/
def find_from (t : TwoByteWM) (hay : List Nat) (offset : Nat) : Except Unit (Option Match) :=
  findLoop t hay (wsub (offset + t.pat_len) 1)

/-- The `Matches` iterator state (src lines 90-94). -/
structure Matches where
  wm : TwoByteWM
  haystack : List Nat
  cur_pos : Nat

/-- `Iterator::next` for `Matches` (src lines 96-101): search from `cur_pos`,
and on success move `cur_pos` to the end of the match. -/
def Matches.next (ms : Matches) : Except Unit (Option (Match × Matches)) :=
  match find_from ms.wm ms.haystack ms.cur_pos with
  | .error e => .error e
  | .ok none => .ok none
  | .ok (some m) => .ok (some (m, { ms with cur_pos := m.«end» }))

/-- `TwoByteWM::find` (src lines 225-231): a fresh iterator starting at 0. -/
def find (t : TwoByteWM) (hay : List Nat) : Matches :=
  { wm := t, haystack := hay, cur_pos := 0 }

/-- Drive the iterator, collecting up to `n` matches (a panic propagates as
`Except.error`). -/
def Matches.collect : Matches → Nat → Except Unit (List Match)
  | _, 0 => .ok []
  | ms, n + 1 =>
    match ms.next with
    | .error e => .error e
    | .ok none => .ok []
    | .ok (some (m, ms')) =>
      match ms'.collect n with
      | .error e => .error e
      | .ok rest => .ok (m :: rest)

/-- The critical-byte hash of the table needle at position `i`. -/
def chN (t : TwoByteWM) (i : Nat) : Nat := criticalHash t.pat_len (pat t i)

/-- Spec-side: the shift-lowering contributions of one needle to hash slot `h`
(the values `pat_len - j - 2` for windows `j` whose byte-pair hashes to `h`). -/
def winContribs (pat_len : Nat) (p : List Nat) (h : Nat) : List Nat :=
  (List.range (pat_len - 1)).filterMap (fun j =>
    if hash_fn (p.getD j 0) (p.getD (j + 1) 0) = h then some (pat_len - j - 2) else none)

/-- Spec-side: all shift-lowering contributions to hash slot `h`. -/
def allContribs (pat_len : Nat) (needles : List (Nat × List Nat)) (h : Nat) : List Nat :=
  (needles.map (fun pr => winContribs pat_len pr.2 h)).flatten

/-- Spec-side: number of needles whose critical hash is below `h` (the start of
bucket `h` in the sorted layout). -/
def cLt (pl : Nat) (needles : List (Nat × List Nat)) (h : Nat) : Nat :=
  needles.countP (fun e => decide (criticalHash pl e.2 < h))

/-- Spec-side: number of needles whose critical hash is at most `h` (the end of
bucket `h` in the sorted layout). -/
def cLe (pl : Nat) (needles : List (Nat × List Nat)) (h : Nat) : Nat :=
  needles.countP (fun e => decide (criticalHash pl e.2 ≤ h))

/-- Spec-side: the verified candidates at scan position `pos` — the indices of
the consulted hash bucket that pass the prefix check and the full comparison,
in bucket order. -/
def verifiedAt (t : TwoByteWM) (hay : List Nat) (pos : Nat) : List Nat :=
  let h := hash_fn (hay.getD (wsub pos 1) 0) (hay.getD pos 0)
  let s := (wsub pos t.pat_len + 1) % USIZE
  let s2 := (wsub pos t.pat_len + 2) % USIZE
  let pfx := ((hay.getD s 0) <<< 8) + hay.getD s2 0
  (List.range' (t.hash h) (t.hash (h + 1) - t.hash h)).filter (bucketKeep t hay s pfx)

/-- Modelled from the spec: the candidate fold of the reference scan — the same
shortest-match tie-break policy as the bucket loop, but applied to any list of
needle indices with no prefix filter and no bucket restriction. -/
def refScan (t : TwoByteWM) (hay : List Nat) (s : Nat) (l : List Nat)
    (found : Option Nat) : Option Nat :=
  selScan (fun i => (pat t i).length) (fun i => (pat t i).isPrefixOf (hay.drop s)) l found

/-- Modelled from the spec: the reference multi-pattern scan of §8 / claim C1 —
walk every window ending position left to right (no skipping), at each position
test every needle of the table against the window start `pos + 1 - pat_len`,
and return the shortest verified match (ties to the first in sorted layout). -/
def refLoop (t : TwoByteWM) (hay : List Nat) (pos : Nat) : Option Match :=
  if pos + 1 ≤ hay.length then
    let s := pos + 1 - t.pat_len
    match refScan t hay s (List.range t.needles.length) none with
    | some c => some ⟨s, s + (pat t c).length, pat_idx t c⟩
    | none => refLoop t hay (pos + 1)
  else none
termination_by hay.length - pos

/-- Modelled from the spec: the reference `find_from`. -/
def refFind_from (t : TwoByteWM) (hay : List Nat) (offset : Nat) : Option Match :=
  refLoop t hay (offset + t.pat_len - 1)

/-- Modelled from the spec: the reference non-overlapping left-to-right match
sequence — each match's `end` becomes the next search offset. -/
def refSeq (t : TwoByteWM) (hay : List Nat) : Nat → Nat → List Match
  | 0, _ => []
  | n + 1, cur =>
    match refFind_from t hay cur with
    | none => []
    | some m => m :: refSeq t hay n m.«end»

/-- ASCII bytes of a string literal. -/
def strBytes (s : String) : List Nat := s.toList.map Char.toNat

/-- The pattern set of the crate's doctest and of §8's concrete scenario. -/
def qbPats : List (List Nat) :=
  [strBytes "quick", strBytes "brown", strBytes "lazy", strBytes "wombat"]

/-- The haystack of the crate's doctest and of §8's concrete scenario. -/
def qbHay : List Nat := strBytes "The quick brown fox jumps over the lazy dog."

/-- The table built from `qbPats` (the fallback branch is dead: `new` succeeds
on `qbPats`). -/
def qbTable : TwoByteWM :=
  match new qbPats with
  | some t => t
  | none => ⟨[], [], 0, fun _ => 0, fun _ => 0⟩

/-- A two-needle set with a shared critical hash and different lengths, for
witnessing the tie-break behaviour. -/
def abPats : List (List Nat) := [[97, 98], [97, 98, 99]]

/-- The table built from `abPats`. -/
def abTable : TwoByteWM :=
  match new abPats with
  | some t => t
  | none => ⟨[], [], 0, fun _ => 0, fun _ => 0⟩

/-- A one-needle set whose single window pair `(1, 0)` hashes to 32, the same
slot as the pair `(0, 32)`. -/
def c6Pats : List (List Nat) := [[1, 0]]

/-- The table built from `c6Pats`. -/
def c6Table : TwoByteWM :=
  match new c6Pats with
  | some t => t
  | none => ⟨[], [], 0, fun _ => 0, fun _ => 0⟩

/-- A two-needle set with critical hashes 5 and 10, leaving stale zero entries
in the `hash` table between and after the used slots. -/
def c7Pats : List (List Nat) := [[0, 5], [0, 10]]

/-- The table built from `c7Pats`. -/
def c7Table : TwoByteWM :=
  match new c7Pats with
  | some t => t
  | none => ⟨[], [], 0, fun _ => 0, fun _ => 0⟩

/-- A pattern set of exactly 65,536 two-byte patterns. -/
def c2Pats : List (List Nat) := List.replicate 65536 [0, 0]

/-- A pattern set containing a 65,537-byte pattern next to a two-byte one. -/
def c2LongPats : List (List Nat) := [[0, 0], List.replicate 65537 7]

/-- Spec-side: the critical hash of the needle at sorted position `i`. -/
def chIdx (pl : Nat) (l : List (Nat × List Nat)) (i : Nat) : Nat :=
  criticalHash pl (l.getD i (0, [])).2

/-- Spec-side: the reverse pass of the `hash` build, started from position `k`
of the enumerated needle list (the source's `.rev()` iteration processes
positions `l.length - 1` down to `k`). -/
def hashFoldFrom (ch : List Nat → Nat) (l : List (Nat × List Nat)) (k : Nat) : Nat → Nat :=
  (l.enum.drop k).foldr (fun pr acc => hashStep ch acc pr) (fun _ => 0)

/-! ### Construction: validity facts -/

theorem minLen_spec {pats : List (List Nat)} (h : pats ≠ []) :
    (∃ p ∈ pats, p.length = minLen pats) ∧ ∀ p ∈ pats, minLen pats ≤ p.length := by
  have hne : pats.map List.length ≠ [] := by
    simpa using h
  rcases hm : (pats.map List.length).min? with _ | m
  · exact absurd (List.min?_eq_none_iff.mp hm) hne
  · have := List.min?_eq_some_iff (fun a : Nat => le_refl a) (fun a b => min_choice a b)
      (fun a b c => le_min_iff) |>.mp hm
    rcases this with ⟨hmem, hle⟩
    rcases List.mem_map.mp hmem with ⟨p, hp, hplen⟩
    constructor
    · exact ⟨p, hp, by simp [minLen, hm, hplen]⟩
    · intro q hq
      have := hle q.length (List.mem_map.mpr ⟨q, hq, rfl⟩)
      simpa [minLen, hm] using this

theorem new_inv {pats : List (List Nat)} {t : TwoByteWM} (hnew : new pats = some t) :
    pats ≠ [] ∧ pats.length ≤ 65535 ∧ 2 ≤ minLen pats ∧ minLen pats ≤ 65535 ∧
      t = mkTable pats (minLen pats) := by
  unfold new at hnew
  split at hnew
  · exact absurd hnew (by simp)
  · split at hnew
    · exact absurd hnew (by simp)
    · split at hnew
      · exact absurd hnew (by simp)
      · split at hnew
        · exact absurd hnew (by simp)
        · rename_i hE hC hS hB
          refine ⟨?_, by omega, by omega, by omega, ?_⟩
          · intro hcon
            rw [hcon] at hE
            simp at hE
          · exact (Option.some.inj hnew).symm

theorem mkTable_pat_len (pats : List (List Nat)) (pl : Nat) :
    (mkTable pats pl).pat_len = pl := rfl

theorem mkTable_needles (pats : List (List Nat)) (pl : Nat) :
    (mkTable pats pl).needles = pats.enum.mergeSort
      (fun p q => decide (criticalHash pl p.2 ≤ criticalHash pl q.2)) := rfl

theorem mkTable_prefixTbl (pats : List (List Nat)) (pl : Nat) :
    (mkTable pats pl).prefixTbl =
      (mkTable pats pl).needles.map (fun p => ((p.2.getD 0 0) <<< 8) + p.2.getD 1 0) := rfl

theorem mkTable_shift (pats : List (List Nat)) (pl : Nat) :
    (mkTable pats pl).shift = buildShift (mkTable pats pl).needles pl := rfl

theorem mkTable_hash (pats : List (List Nat)) (pl : Nat) :
    (mkTable pats pl).hash = buildHash (mkTable pats pl).needles (criticalHash pl) := rfl

theorem valid_pat_len {pats : List (List Nat)} {t : TwoByteWM} (hnew : new pats = some t) :
    2 ≤ t.pat_len := by
  obtain ⟨-, -, h2, -, ht⟩ := new_inv hnew
  rw [ht, mkTable_pat_len]; exact h2

theorem valid_perm {pats : List (List Nat)} {t : TwoByteWM} (hnew : new pats = some t) :
    t.needles.Perm pats.enum := by
  obtain ⟨-, -, -, -, ht⟩ := new_inv hnew
  rw [ht, mkTable_needles]
  exact List.mergeSort_perm _ _

theorem valid_sorted {pats : List (List Nat)} {t : TwoByteWM} (hnew : new pats = some t) :
    t.needles.Pairwise
      (fun p q => criticalHash t.pat_len p.2 ≤ criticalHash t.pat_len q.2) := by
  obtain ⟨-, -, -, -, ht⟩ := new_inv hnew
  rw [ht, mkTable_needles, mkTable_pat_len]
  have := @List.sorted_mergeSort (Nat × List Nat)
    (fun p q =>
      decide (criticalHash (minLen pats) p.2 ≤ criticalHash (minLen pats) q.2))
    (fun a b c h1 h2 => by
      simp only [decide_eq_true_eq] at *; omega)
    (fun a b => by
      simp only [Bool.or_eq_true, decide_eq_true_eq]; omega)
    pats.enum
  exact this.imp (fun h => by simpa using h)

theorem valid_mem {pats : List (List Nat)} {t : TwoByteWM} (hnew : new pats = some t)
    {e : Nat × List Nat} (he : e ∈ t.needles) :
    e.1 < pats.length ∧ pats[e.1]? = some e.2 := by
  have : e ∈ pats.enum := (valid_perm hnew).mem_iff.mp he
  have h2 := List.mem_enum_iff_getElem?.mp this
  exact ⟨(List.getElem?_eq_some_iff.mp h2).1, h2⟩

theorem valid_needle_len {pats : List (List Nat)} {t : TwoByteWM} (hnew : new pats = some t)
    {e : Nat × List Nat} (he : e ∈ t.needles) : t.pat_len ≤ e.2.length := by
  obtain ⟨hne, -, -, -, ht⟩ := new_inv hnew
  obtain ⟨-, hget⟩ := valid_mem hnew he
  have hmem : e.2 ∈ pats := by
    obtain ⟨hlt, hg⟩ := List.getElem?_eq_some_iff.mp hget
    exact hg ▸ List.getElem_mem hlt
  have := (minLen_spec hne).2 e.2 hmem
  rw [ht, mkTable_pat_len]
  exact this

theorem valid_length {pats : List (List Nat)} {t : TwoByteWM} (hnew : new pats = some t) :
    t.needles.length = pats.length := by
  have := (valid_perm hnew).length_eq
  simpa using this

/-! ### Claim C2: construction validation -/

/-- C2 (amended): `new` fails exactly when the pattern set is empty, the count
exceeds 65,535, some pattern is shorter than 2 bytes, or every pattern is
longer than 65,535 bytes (the length ceiling is checked against the shortest
pattern only). -/
theorem C2_new_none_iff (pats : List (List Nat)) :
    new pats = none ↔
      pats = [] ∨ 65535 < pats.length ∨ (∃ p ∈ pats, p.length < 2) ∨
        (∀ p ∈ pats, 65535 < p.length) := by
  by_cases hne : pats = []
  · subst hne; simp [new]
  · obtain ⟨⟨q, hq, hqlen⟩, hmin⟩ := minLen_spec hne
    unfold new
    simp only [List.isEmpty_iff, hne, if_false]
    by_cases hlen : 65535 < pats.length
    · simp [hlen, hne]
    · simp only [hlen, if_false]
      by_cases hsmall : minLen pats < 2
      · simp only [hsmall, if_true]
        constructor
        · intro _
          exact Or.inr (Or.inr (Or.inl ⟨q, hq, by omega⟩))
        · intro _; trivial
      · simp only [hsmall, if_false]
        by_cases hbig : 65535 < minLen pats
        · simp only [hbig, if_true]
          constructor
          · intro _
            refine Or.inr (Or.inr (Or.inr ?_))
            intro p hp
            have := hmin p hp
            omega
          · intro _; trivial
        · simp only [hbig, if_false]
          constructor
          · intro hcon; exact absurd hcon (by simp)
          · intro hcases
            rcases hcases with h | h | ⟨p, hp, hplen⟩ | hall
            · exact h.elim
            · exact h.elim
            · have := hmin p hp; omega
            · have := hall q hq; omega

/-- C2 counterexample: a set of exactly 65,536 valid two-byte patterns violates
none of the claim's conditions (the count does not exceed 65,536), yet
construction fails; conversely a set containing a 65,537-byte pattern meets the
claim's "some pattern exceeds 65,536 bytes" failure condition, yet construction
succeeds (only the shortest pattern's length is checked). -/
theorem C2_counterexample :
    (c2Pats.length = 65536 ∧ (∀ p ∈ c2Pats, p.length = 2) ∧ new c2Pats = none) ∧
      ((∃ p ∈ c2LongPats, 65536 < p.length) ∧ (new c2LongPats).isSome = true) := by
  constructor
  swap
  · have hmem : List.replicate 65537 7 ∈ c2LongPats := by
      rw [c2LongPats]
      exact List.mem_cons_of_mem _ (List.mem_cons_self _ _)
    have hE2 : c2LongPats.isEmpty = false := by
      rw [c2LongPats]
      rfl
    have hL2 : c2LongPats.length = 2 := by
      rw [c2LongPats]
      rfl
    constructor
    · refine ⟨List.replicate 65537 7, hmem, ?_⟩
      rw [List.length_replicate]
      omega
    · have hmin : minLen c2LongPats = 2 := by
        unfold minLen c2LongPats
        rw [List.map_cons, List.map_cons, List.map_nil, List.length_replicate]
        rfl
      unfold new
      rw [if_neg (by rw [hE2]; exact Bool.false_ne_true),
        if_neg (by rw [hL2]; omega), hmin,
        if_neg (by omega), if_neg (by omega)]
      rfl
  ·
    have hlen : c2Pats.length = 65536 := by
      rw [c2Pats]; exact List.length_replicate _ _
    refine ⟨hlen, ?_, ?_⟩
    · intro p hp
      rw [c2Pats] at hp
      have hpa := List.eq_of_mem_replicate hp
      rw [hpa]
      rfl
    · have hE : c2Pats.isEmpty = false := by
        cases hE : c2Pats.isEmpty
        · rfl
        · have h0 := List.isEmpty_iff.mp hE
          rw [h0] at hlen
          simp at hlen
      unfold new
      rw [hE]
      simp only [Bool.false_eq_true, if_false]
      rw [hlen, if_pos (by norm_num)]

/-! ### The shift table -/

theorem foldl_min_le_iff (l : List Nat) (b k : Nat) :
    l.foldl min b ≤ k ↔ b ≤ k ∨ ∃ x ∈ l, x ≤ k := by
  induction l generalizing b with
  | nil => simp
  | cons a l ih =>
    rw [List.foldl_cons, ih]
    simp only [min_le_iff, List.mem_cons]
    constructor
    · rintro ((h | h) | ⟨x, hx, hxk⟩)
      · exact Or.inl h
      · exact Or.inr ⟨a, Or.inl rfl, h⟩
      · exact Or.inr ⟨x, Or.inr hx, hxk⟩
    · rintro (h | ⟨x, (rfl | hx), hxk⟩)
      · exact Or.inl (Or.inl h)
      · exact Or.inl (Or.inr hxk)
      · exact Or.inr ⟨x, hx, hxk⟩

theorem foldl_min_mem (l : List Nat) (b : Nat) :
    l.foldl min b = b ∨ l.foldl min b ∈ l := by
  induction l generalizing b with
  | nil => exact Or.inl rfl
  | cons a l ih =>
    rw [List.foldl_cons]
    rcases ih (min b a) with h | h
    · rcases min_choice b a with hm | hm
      · exact Or.inl (h.trans hm)
      · exact Or.inr (List.mem_cons.mpr (Or.inl (h.trans hm)))
    · exact Or.inr (List.mem_cons.mpr (Or.inr h))

theorem shiftStep_at (pl : Nat) (p : List Nat) (acc : Nat → Nat) (h : Nat) :
    shiftStep pl acc p h = (winContribs pl p h).foldl min (acc h) := by
  unfold shiftStep winContribs
  generalize List.range (pl - 1) = js
  induction js generalizing acc with
  | nil => simp
  | cons j js ih =>
    rw [List.foldl_cons, List.filterMap_cons]
    by_cases hj : hash_fn (p.getD j 0) (p.getD (j + 1) 0) = h
    · rw [if_pos hj, List.foldl_cons, ih]
      congr 1
      simp only [upd]
      rw [if_pos hj.symm, hj]
    · rw [if_neg hj, ih]
      congr 1
      have hne : h ≠ hash_fn (p.getD j 0) (p.getD (j + 1) 0) := fun hc => hj hc.symm
      simp only [upd, if_neg hne]

theorem buildShift_at (pl : Nat) (needles : List (Nat × List Nat)) (h : Nat) :
    buildShift needles pl h = (allContribs pl needles h).foldl min (pl - 1) := by
  suffices hgen : ∀ (f : Nat → Nat),
      (needles.foldl (fun acc pr => shiftStep pl acc pr.2) f) h =
        ((needles.map (fun pr => winContribs pl pr.2 h)).flatten).foldl min (f h) by
    exact hgen (fun _ => pl - 1)
  induction needles with
  | nil => intro f; simp
  | cons e es ih =>
    intro f
    rw [List.foldl_cons, ih, List.map_cons, List.flatten_cons, List.foldl_append,
      shiftStep_at]

theorem mem_winContribs {pl : Nat} {p : List Nat} {h x : Nat} :
    x ∈ winContribs pl p h ↔
      ∃ j, j < pl - 1 ∧ hash_fn (p.getD j 0) (p.getD (j + 1) 0) = h ∧ x = pl - j - 2 := by
  unfold winContribs
  simp only [List.mem_filterMap, List.mem_range]
  constructor
  · rintro ⟨j, hj, hx⟩
    by_cases hh : hash_fn (p.getD j 0) (p.getD (j + 1) 0) = h
    · rw [if_pos hh] at hx
      exact ⟨j, hj, hh, (Option.some.inj hx).symm⟩
    · rw [if_neg hh] at hx
      exact absurd hx (by simp)
  · rintro ⟨j, hj, hh, rfl⟩
    exact ⟨j, hj, by rw [if_pos hh]⟩

theorem mem_allContribs {pl : Nat} {needles : List (Nat × List Nat)} {h x : Nat} :
    x ∈ allContribs pl needles h ↔ ∃ e ∈ needles, x ∈ winContribs pl e.2 h := by
  unfold allContribs
  simp only [List.mem_flatten, List.mem_map]
  constructor
  · rintro ⟨w, ⟨e, he, rfl⟩, hx⟩
    exact ⟨e, he, hx⟩
  · rintro ⟨e, he, hx⟩
    exact ⟨winContribs pl e.2 h, ⟨e, he, rfl⟩, hx⟩

theorem shift_eq_build {pats : List (List Nat)} {t : TwoByteWM} (hnew : new pats = some t) :
    t.shift = buildShift t.needles t.pat_len := by
  obtain ⟨-, -, -, -, ht⟩ := new_inv hnew
  rw [ht, mkTable_shift, mkTable_pat_len]

theorem shift_le_iff {pats : List (List Nat)} {t : TwoByteWM} (hnew : new pats = some t)
    (h k : Nat) :
    t.shift h ≤ k ↔ t.pat_len - 1 ≤ k ∨ ∃ e ∈ t.needles, ∃ j, j < t.pat_len - 1 ∧
      hash_fn (e.2.getD j 0) (e.2.getD (j + 1) 0) = h ∧ t.pat_len - j - 2 ≤ k := by
  rw [shift_eq_build hnew, buildShift_at, foldl_min_le_iff]
  constructor
  · rintro (hb | ⟨x, hx, hxk⟩)
    · exact Or.inl hb
    · obtain ⟨e, he, hw⟩ := mem_allContribs.mp hx
      obtain ⟨j, hj, hh, rfl⟩ := mem_winContribs.mp hw
      exact Or.inr ⟨e, he, j, hj, hh, hxk⟩
  · rintro (hb | ⟨e, he, j, hj, hh, hk⟩)
    · exact Or.inl hb
    · exact Or.inr ⟨t.pat_len - j - 2,
        mem_allContribs.mpr ⟨e, he, mem_winContribs.mpr ⟨j, hj, hh, rfl⟩⟩, hk⟩

theorem shift_le_default {pats : List (List Nat)} {t : TwoByteWM}
    (hnew : new pats = some t) (h : Nat) : t.shift h ≤ t.pat_len - 1 :=
  (shift_le_iff hnew h _).mpr (Or.inl le_rfl)

theorem shift_le_of_window {pats : List (List Nat)} {t : TwoByteWM}
    (hnew : new pats = some t) {e : Nat × List Nat} (he : e ∈ t.needles) {j h : Nat}
    (hj : j < t.pat_len - 1) (hh : hash_fn (e.2.getD j 0) (e.2.getD (j + 1) 0) = h) :
    t.shift h ≤ t.pat_len - j - 2 :=
  (shift_le_iff hnew h _).mpr (Or.inr ⟨e, he, j, hj, hh, le_rfl⟩)

theorem shift_zero_crit {pats : List (List Nat)} {t : TwoByteWM}
    (hnew : new pats = some t) {h : Nat} (hz : t.shift h = 0) :
    ∃ e ∈ t.needles, criticalHash t.pat_len e.2 = h := by
  have h2 := valid_pat_len hnew
  have hb := shift_eq_build hnew
  have := foldl_min_mem (allContribs t.pat_len t.needles h) (t.pat_len - 1)
  rw [← buildShift_at, ← congrFun hb h, hz] at this
  rcases this with h0 | h0
  · omega
  · obtain ⟨e, he, hw⟩ := mem_allContribs.mp h0
    obtain ⟨j, hj, hh, hx⟩ := mem_winContribs.mp hw
    have hj2 : j = t.pat_len - 2 := by omega
    refine ⟨e, he, ?_⟩
    unfold criticalHash
    rw [← hh, hj2]
    have hstep : t.pat_len - 2 + 1 = t.pat_len - 1 := by omega
    rw [hstep]

/-! ### Claim C6: the shift table entries -/

/-- C6 (amended): for every two-byte pair, `shift[hash16(a,b)]` is the minimum
of `pat_len - 1` and the values `pat_len - 2 - j` over every needle window `j`
whose byte pair *hashes* to `hash16(a,b)` (not only windows whose pair equals
`(a, b)` — `hash16` is not injective), characterized by its lower bounds. -/
theorem C6_shift_entries {pats : List (List Nat)} {t : TwoByteWM}
    (hnew : new pats = some t) (a b k : Nat) :
    t.shift (hash_fn a b) ≤ k ↔ t.pat_len - 1 ≤ k ∨ ∃ e ∈ t.needles, ∃ j,
      j < t.pat_len - 1 ∧
      hash_fn (e.2.getD j 0) (e.2.getD (j + 1) 0) = hash_fn a b ∧
      t.pat_len - j - 2 ≤ k :=
  shift_le_iff hnew (hash_fn a b) k

theorem C6_shift_entries_witness :
    (new c6Pats = some c6Table) ∧
      (c6Table.shift (hash_fn 1 0) ≤ 0 ↔ c6Table.pat_len - 1 ≤ 0 ∨
        ∃ e ∈ c6Table.needles, ∃ j, j < c6Table.pat_len - 1 ∧
          hash_fn (e.2.getD j 0) (e.2.getD (j + 1) 0) = hash_fn 1 0 ∧
          c6Table.pat_len - j - 2 ≤ 0) :=
  ⟨rfl, @C6_shift_entries c6Pats c6Table rfl 1 0 0⟩

/-- C6 counterexample: for the needle set `[[1, 0]]`, the pair `(0, 32)` occurs
in no needle window, yet `shift[hash16(0, 32)] = 0` (not the claimed default
`minLength - 1 = 1`), because the window pair `(1, 0)` hashes to the same slot
`32`. -/
theorem C6_counterexample :
    new c6Pats = some c6Table ∧ hash_fn 0 32 = 32 ∧ c6Table.pat_len - 1 = 1 ∧
      c6Table.shift 32 = 0 ∧
      ∀ e ∈ c6Table.needles, ∀ j, j < c6Table.pat_len - 1 →
        ¬(e.2.getD j 0 = 0 ∧ e.2.getD (j + 1) 0 = 32) :=
  ⟨rfl, rfl, rfl, rfl, by decide⟩

/-! ### The hash table: sorted-count facts -/

theorem cLt_cons {pl h : Nat} {x : Nat × List Nat} {xs : List (Nat × List Nat)} :
    cLt pl (x :: xs) h = cLt pl xs h + if criticalHash pl x.2 < h then 1 else 0 := by
  unfold cLt
  rw [List.countP_cons]
  congr 1
  simp

theorem cLe_cons {pl h : Nat} {x : Nat × List Nat} {xs : List (Nat × List Nat)} :
    cLe pl (x :: xs) h = cLe pl xs h + if criticalHash pl x.2 ≤ h then 1 else 0 := by
  unfold cLe
  rw [List.countP_cons]
  congr 1
  simp

theorem cLt_le_cLe (pl : Nat) (l : List (Nat × List Nat)) (h : Nat) :
    cLt pl l h ≤ cLe pl l h := by
  unfold cLt cLe
  refine List.countP_mono_left ?_
  intro x _ hx
  simp only [decide_eq_true_eq] at *
  omega

theorem cLe_le_length (pl : Nat) (l : List (Nat × List Nat)) (h : Nat) :
    cLe pl l h ≤ l.length :=
  List.countP_le_length _

theorem cLt_succ (pl : Nat) (l : List (Nat × List Nat)) (h : Nat) :
    cLt pl l (h + 1) = cLe pl l h := by
  unfold cLt cLe
  refine List.countP_congr ?_
  intro x _
  simp only [decide_eq_true_eq]
  omega

theorem sorted_count_le {pl : Nat} {l : List (Nat × List Nat)}
    (hs : List.Pairwise (fun p q => criticalHash pl p.2 ≤ criticalHash pl q.2) l)
    {i : Nat} (hi : i < l.length) :
    cLt pl l (chIdx pl l i) ≤ i ∧ i < cLe pl l (chIdx pl l i) := by
  induction l generalizing i with
  | nil => simp at hi
  | cons x xs ih =>
    rcases List.pairwise_cons.mp hs with ⟨hx, hxs⟩
    cases i with
    | zero =>
      have hch : chIdx pl (x :: xs) 0 = criticalHash pl x.2 := by
        unfold chIdx
        rw [List.getD_cons_zero]
      rw [hch]
      constructor
      · have h0 : cLt pl (x :: xs) (criticalHash pl x.2) = 0 := by
          unfold cLt
          rw [List.countP_eq_zero]
          intro a ha
          rcases List.mem_cons.mp ha with rfl | ha'
          · simp
          · have := hx a ha'
            simp only [decide_eq_true_eq]
            omega
        exact h0.le
      · rw [cLe_cons, if_pos le_rfl]
        omega
    | succ j =>
      have hj : j < xs.length := by
        simpa using hi
      have hch : chIdx pl (x :: xs) (j + 1) = chIdx pl xs j := by
        unfold chIdx
        rw [List.getD_cons_succ]
      rw [hch]
      have ihj := ih hxs hj
      rw [cLt_cons, cLe_cons]
      constructor
      · split <;> omega
      · by_cases hle : criticalHash pl x.2 ≤ chIdx pl xs j
        · rw [if_pos hle]; omega
        · exfalso
          have hmem : xs.getD j (0, []) ∈ xs := by
            rw [List.getD_eq_getElem _ _ hj]
            exact List.getElem_mem hj
          exact hle (hx _ hmem)

theorem sorted_count_mem {pl : Nat} {l : List (Nat × List Nat)}
    (hs : List.Pairwise (fun p q => criticalHash pl p.2 ≤ criticalHash pl q.2) l)
    {i h : Nat} (h1 : cLt pl l h ≤ i) (h2 : i < cLe pl l h) : chIdx pl l i = h := by
  induction l generalizing i with
  | nil =>
    unfold cLe at h2
    simp [List.countP_nil] at h2
  | cons x xs ih =>
    rcases List.pairwise_cons.mp hs with ⟨hx, hxs⟩
    rw [cLt_cons] at h1
    rw [cLe_cons] at h2
    rcases Nat.lt_trichotomy (criticalHash pl x.2) h with hlt | heq | hgt
    · rw [if_pos hlt] at h1
      rw [if_pos hlt.le] at h2
      cases i with
      | zero => omega
      | succ j =>
        have hch : chIdx pl (x :: xs) (j + 1) = chIdx pl xs j := by
          unfold chIdx
          rw [List.getD_cons_succ]
        rw [hch]
        exact ih hxs (by omega) (by omega)
    · cases i with
      | zero =>
        unfold chIdx
        rw [List.getD_cons_zero]
        exact heq
      | succ j =>
        have h0 : cLt pl xs h = 0 := by
          unfold cLt
          rw [List.countP_eq_zero]
          intro a ha
          have := hx a ha
          simp only [decide_eq_true_eq]
          omega
        have hch : chIdx pl (x :: xs) (j + 1) = chIdx pl xs j := by
          unfold chIdx
          rw [List.getD_cons_succ]
        rw [hch]
        rw [if_pos heq.le] at h2
        exact ih hxs (by omega) (by omega)
    · exfalso
      have hnle : ¬criticalHash pl x.2 ≤ h := by omega
      rw [if_neg hnle] at h2
      have h0 : cLe pl xs h = 0 := by
        unfold cLe
        rw [List.countP_eq_zero]
        intro a ha
        have := hx a ha
        simp only [decide_eq_true_eq]
        omega
      omega

/-! ### The hash table: the reverse pass -/

theorem hashStep_at (ch : List Nat → Nat) (acc : Nat → Nat) (pr : Nat × (Nat × List Nat))
    (j : Nat) :
    hashStep ch acc pr j =
      if j = ch pr.2.2 then pr.1
      else if j = ch pr.2.2 + 1 then (if acc (ch pr.2.2 + 1) = 0 then pr.1 + 1 else acc j)
      else acc j := by
  unfold hashStep
  have hne : ¬(ch pr.2.2 + 1 = ch pr.2.2) := by omega
  have hacc1 : upd acc (ch pr.2.2) pr.1 (ch pr.2.2 + 1) = acc (ch pr.2.2 + 1) := by
    unfold upd
    rw [if_neg hne]
  rw [hacc1]
  by_cases h1 : j = ch pr.2.2
  · rw [if_pos h1]
    have hj1 : ¬(j = ch pr.2.2 + 1) := by omega
    by_cases hA : acc (ch pr.2.2 + 1) = 0
    · rw [if_pos hA]
      unfold upd
      rw [if_neg hj1, if_pos h1]
    · rw [if_neg hA]
      unfold upd
      rw [if_pos h1]
  · rw [if_neg h1]
    by_cases h2 : j = ch pr.2.2 + 1
    · rw [if_pos h2]
      by_cases hA : acc (ch pr.2.2 + 1) = 0
      · rw [if_pos hA, if_pos hA]
        unfold upd
        rw [if_pos h2]
      · rw [if_neg hA, if_neg hA]
        unfold upd
        rw [if_neg h1]
    · rw [if_neg h2]
      by_cases hA : acc (ch pr.2.2 + 1) = 0
      · rw [if_pos hA]
        unfold upd
        rw [if_neg h2, if_neg h1]
      · rw [if_neg hA]
        unfold upd
        rw [if_neg h1]

theorem hashFoldFrom_succ (ch : List Nat → Nat) (l : List (Nat × List Nat)) {k : Nat}
    (hk : k < l.length) :
    hashFoldFrom ch l k =
      hashStep ch (hashFoldFrom ch l (k + 1)) (k, l.getD k (0, [])) := by
  unfold hashFoldFrom
  have hk' : k < l.enum.length := by
    rw [List.enum_length]
    exact hk
  rw [List.drop_eq_getElem_cons hk', List.foldr_cons]
  congr 1
  rw [List.getElem_enum]
  rw [List.getD_eq_getElem _ _ hk]

theorem buildHash_eq_foldFrom (l : List (Nat × List Nat)) (ch : List Nat → Nat) :
    buildHash l ch = hashFoldFrom ch l 0 := by
  unfold buildHash hashFoldFrom
  rw [List.foldl_reverse, List.drop_zero]

theorem hashFoldFrom_spec {pl : Nat} {l : List (Nat × List Nat)}
    (hs : List.Pairwise (fun p q => criticalHash pl p.2 ≤ criticalHash pl q.2) l) :
    ∀ m k, k + m = l.length → ∀ h,
      ((∃ i, k ≤ i ∧ i < l.length ∧ chIdx pl l i = h) →
        hashFoldFrom (criticalHash pl) l k h = max (cLt pl l h) k) ∧
      (¬(∃ i, k ≤ i ∧ i < l.length ∧ chIdx pl l i = h) →
        (∃ i, k ≤ i ∧ i < l.length ∧ chIdx pl l i + 1 = h) →
        hashFoldFrom (criticalHash pl) l k h = cLt pl l h) ∧
      (¬(∃ i, k ≤ i ∧ i < l.length ∧ chIdx pl l i = h) →
        ¬(∃ i, k ≤ i ∧ i < l.length ∧ chIdx pl l i + 1 = h) →
        hashFoldFrom (criticalHash pl) l k h = 0) := by
  intro m
  induction m with
  | zero =>
    intro k hk h
    have hdrop : l.enum.drop k = [] := by
      apply List.drop_eq_nil_of_le
      rw [List.enum_length]
      omega
    refine ⟨?_, ?_, ?_⟩
    · rintro ⟨i, hki, hil, -⟩
      omega
    · rintro - ⟨i, hki, hil, -⟩
      omega
    · intro _ _
      unfold hashFoldFrom
      rw [hdrop]
      rfl
  | succ m ih =>
    intro k hk h
    have hkl : k < l.length := by omega
    have hrec := hashFoldFrom_succ (criticalHash pl) l hkl
    have hcc : criticalHash pl ((k, l.getD k ((0 : Nat), ([] : List Nat))).2.2) =
        chIdx pl l k := rfl
    have hcnt := sorted_count_le hs hkl
    by_cases hhc : h = chIdx pl l k
    · -- the slot written by the start write of needle k
      have hE1 : ∃ i, k ≤ i ∧ i < l.length ∧ chIdx pl l i = h := ⟨k, le_rfl, hkl, hhc.symm⟩
      have hval : hashFoldFrom (criticalHash pl) l k h = k := by
        rw [hrec, hashStep_at, hcc, if_pos hhc]
      refine ⟨?_, ?_, ?_⟩
      · intro _
        rw [hval]
        rw [hhc] at *
        omega
      · intro hn _
        exact absurd hE1 hn
      · intro hn _
        exact absurd hE1 hn
    · by_cases hhc1 : h = chIdx pl l k + 1
      · -- the successor slot, possibly closed by the end write of needle k
        have hE2 : ∃ i, k ≤ i ∧ i < l.length ∧ chIdx pl l i + 1 = h :=
          ⟨k, le_rfl, hkl, hhc1.symm⟩
        have hcLe : k < cLe pl l (chIdx pl l k) := hcnt.2
        have hcLt1 : cLt pl l h = cLe pl l (chIdx pl l k) := by
          rw [hhc1, cLt_succ]
        have hval : hashFoldFrom (criticalHash pl) l k h =
            (if hashFoldFrom (criticalHash pl) l (k + 1) (chIdx pl l k + 1) = 0
              then k + 1 else hashFoldFrom (criticalHash pl) l (k + 1) h) := by
          rw [hrec, hashStep_at, hcc, if_neg hhc, if_pos hhc1]
        have ihk := ih (k + 1) (by omega) h
        refine ⟨?_, ?_, ?_⟩
        · intro hE1
          obtain ⟨i, hki, hil, hchi⟩ := hE1
          have hik : i ≠ k := by
            intro hik
            rw [hik] at hchi
            exact hhc hchi.symm
          have hE1' : ∃ i, k + 1 ≤ i ∧ i < l.length ∧ chIdx pl l i = h :=
            ⟨i, by omega, hil, hchi⟩
          have hA := ihk.1 hE1'
          have hge : k + 1 ≤ cLt pl l h := by omega
          have hAval : hashFoldFrom (criticalHash pl) l (k + 1) h = cLt pl l h := by
            rw [hA]
            omega
          rw [hval, ← hhc1, hAval]
          rw [if_neg (by omega)]
          omega
        · intro hnE1 _
          have hnE1' : ¬∃ i, k + 1 ≤ i ∧ i < l.length ∧ chIdx pl l i = h := by
            intro ⟨i, hki, hil, hchi⟩
            exact hnE1 ⟨i, by omega, hil, hchi⟩
          by_cases hE2' : ∃ i, k + 1 ≤ i ∧ i < l.length ∧ chIdx pl l i + 1 = h
          · have hA := (ihk.2.1) hnE1' hE2'
            rw [hval, ← hhc1, hA]
            rw [if_neg (by omega)]
          · have hA := (ihk.2.2) hnE1' hE2'
            rw [hval, ← hhc1, hA, if_pos rfl]
            -- show cLt h = k + 1, i.e. cLe (chIdx k) = k + 1
            have hub : cLe pl l (chIdx pl l k) ≤ k + 1 := by
              by_contra hub
              push_neg at hub
              have hk1 : k + 1 < l.length := by
                have := cLe_le_length pl l (chIdx pl l k)
                omega
              have hmem : chIdx pl l (k + 1) = chIdx pl l k :=
                sorted_count_mem hs (by omega) (by omega)
              exact hE2' ⟨k + 1, le_rfl, hk1, by rw [hmem, hhc1]⟩
            omega
        · intro _ hnE2
          exact absurd hE2 hnE2
      · -- a slot untouched by needle k
        have hval : hashFoldFrom (criticalHash pl) l k h =
            hashFoldFrom (criticalHash pl) l (k + 1) h := by
          rw [hrec, hashStep_at, hcc, if_neg hhc, if_neg hhc1]
        have ihk := ih (k + 1) (by omega) h
        refine ⟨?_, ?_, ?_⟩
        · intro hE1
          obtain ⟨i, hki, hil, hchi⟩ := hE1
          have hik : i ≠ k := by
            intro hik
            rw [hik] at hchi
            exact hhc hchi.symm
          have hE1' : ∃ i, k + 1 ≤ i ∧ i < l.length ∧ chIdx pl l i = h :=
            ⟨i, by omega, hil, hchi⟩
          have hA := ihk.1 hE1'
          have hblk := sorted_count_le hs hil
          rw [hchi] at hblk
          have hgt : k < cLt pl l h := by
            by_contra hle
            push_neg at hle
            have hmemk : chIdx pl l k = h :=
              sorted_count_mem hs hle (by omega)
            exact hhc hmemk.symm
          rw [hval, hA]
          omega
        · intro hnE1 hE2
          obtain ⟨i, hki, hil, hchi⟩ := hE2
          have hik : i ≠ k := by
            intro hik
            rw [hik] at hchi
            exact hhc1 hchi.symm
          have hnE1' : ¬∃ i, k + 1 ≤ i ∧ i < l.length ∧ chIdx pl l i = h := by
            intro ⟨i2, hki2, hil2, hchi2⟩
            exact hnE1 ⟨i2, by omega, hil2, hchi2⟩
          have hA := (ihk.2.1) hnE1' ⟨i, by omega, hil, hchi⟩
          rw [hval, hA]
        · intro hnE1 hnE2
          have hnE1' : ¬∃ i, k + 1 ≤ i ∧ i < l.length ∧ chIdx pl l i = h := by
            intro ⟨i2, hki2, hil2, hchi2⟩
            exact hnE1 ⟨i2, by omega, hil2, hchi2⟩
          have hnE2' : ¬∃ i, k + 1 ≤ i ∧ i < l.length ∧ chIdx pl l i + 1 = h := by
            intro ⟨i2, hki2, hil2, hchi2⟩
            exact hnE2 ⟨i2, by omega, hil2, hchi2⟩
          have hA := (ihk.2.2) hnE1' hnE2'
          rw [hval, hA]

theorem chN_eq_chIdx (t : TwoByteWM) (i : Nat) : chN t i = chIdx t.pat_len t.needles i := rfl

theorem hash_eq_build {pats : List (List Nat)} {t : TwoByteWM} (hnew : new pats = some t) :
    t.hash = buildHash t.needles (criticalHash t.pat_len) := by
  obtain ⟨-, -, -, -, ht⟩ := new_inv hnew
  rw [ht, mkTable_hash, mkTable_pat_len]

theorem hash_bucket {pats : List (List Nat)} {t : TwoByteWM} (hnew : new pats = some t)
    {h : Nat} (hne : ∃ i, i < t.needles.length ∧ chN t i = h) :
    t.hash h = cLt t.pat_len t.needles h ∧ t.hash (h + 1) = cLe t.pat_len t.needles h := by
  have hs := valid_sorted hnew
  have hspec := hashFoldFrom_spec hs t.needles.length 0 (by omega)
  rw [hash_eq_build hnew, buildHash_eq_foldFrom]
  obtain ⟨i, hil, hchi⟩ := hne
  rw [chN_eq_chIdx] at hchi
  constructor
  · have hv := (hspec h).1 ⟨i, by omega, hil, hchi⟩
    rw [hv]
    exact Nat.max_eq_left (Nat.zero_le _)
  · by_cases hE1 : ∃ j, 0 ≤ j ∧ j < t.needles.length ∧ chIdx t.pat_len t.needles j = h + 1
    · have hv := (hspec (h + 1)).1 hE1
      rw [hv, Nat.max_eq_left (Nat.zero_le _), cLt_succ]
    · have hv := (hspec (h + 1)).2.1 hE1 ⟨i, by omega, hil, by rw [hchi]⟩
      rw [hv, cLt_succ]

theorem hash_range_iff {pats : List (List Nat)} {t : TwoByteWM} (hnew : new pats = some t)
    {h : Nat} (hne : ∃ i, i < t.needles.length ∧ chN t i = h) {i : Nat}
    (hi : i < t.needles.length) :
    (t.hash h ≤ i ∧ i < t.hash (h + 1)) ↔ chN t i = h := by
  obtain ⟨hlo, hhi⟩ := hash_bucket hnew hne
  rw [hlo, hhi, chN_eq_chIdx]
  constructor
  · rintro ⟨h1, h2⟩
    exact sorted_count_mem (valid_sorted hnew) h1 h2
  · intro hch
    have := sorted_count_le (valid_sorted hnew) hi
    rw [hch] at this
    exact this

theorem hash_range_bounds {pats : List (List Nat)} {t : TwoByteWM} (hnew : new pats = some t)
    {h : Nat} (hne : ∃ i, i < t.needles.length ∧ chN t i = h) :
    t.hash h ≤ t.hash (h + 1) ∧ t.hash (h + 1) ≤ t.needles.length := by
  obtain ⟨hlo, hhi⟩ := hash_bucket hnew hne
  rw [hlo, hhi]
  exact ⟨cLt_le_cLe _ _ _, cLe_le_length _ _ _⟩

/-! ### Claim C7: the hash buckets -/

/-- C7 (amended): for every hash value `h` that is the critical hash of at
least one needle, `hash[h]..hash[h+1]` is exactly the bucket of needles whose
critical hash is `h`.  (For hash values beyond the last nonempty bucket the
table keeps stale zeros, so the claim's "every hash value" and its
monotonicity assertion fail — see the counterexample.) -/
theorem C7_hash_buckets {pats : List (List Nat)} {t : TwoByteWM} (hnew : new pats = some t)
    {h : Nat} (hne : ∃ i, i < t.needles.length ∧ chN t i = h) :
    t.hash h ≤ t.hash (h + 1) ∧ t.hash (h + 1) ≤ t.needles.length ∧
      ∀ i, i < t.needles.length → ((t.hash h ≤ i ∧ i < t.hash (h + 1)) ↔ chN t i = h) := by
  obtain ⟨h1, h2⟩ := hash_range_bounds hnew hne
  exact ⟨h1, h2, fun i hi => hash_range_iff hnew hne hi⟩

theorem C7_hash_buckets_witness :
    (new c7Pats = some c7Table) ∧
      (c7Table.hash 5 ≤ c7Table.hash 6 ∧ c7Table.hash 6 ≤ c7Table.needles.length ∧
        ∀ i, i < c7Table.needles.length →
          ((c7Table.hash 5 ≤ i ∧ i < c7Table.hash 6) ↔ chN c7Table i = 5)) :=
  ⟨rfl, @C7_hash_buckets c7Pats c7Table rfl 5 ⟨0, by decide, by decide⟩⟩

/-- C7 counterexample: for the needle set `[[0, 5], [0, 10]]` (critical hashes
5 and 10), the bucket range of the never-occurring hash value 9 is
`hash[9]..hash[10] = 0..1`, which contains needle 0 whose critical hash is 5 —
not "exactly the patterns whose critical-byte hash equals 9" — and
`hash[11] = 2 > hash[12] = 0`, so `hash` is not monotone nondecreasing. -/
theorem C7_counterexample :
    new c7Pats = some c7Table ∧ c7Table.needles.length = 2 ∧
      c7Table.hash 9 = 0 ∧ c7Table.hash 10 = 1 ∧ chN c7Table 0 = 5 ∧
      c7Table.hash 11 = 2 ∧ c7Table.hash 12 = 0 :=
  ⟨rfl, rfl, rfl, rfl, rfl, rfl, rfl⟩

/-! ### The candidate-selection fold -/

theorem selScan_cons {f : Nat → Nat} {k : Nat → Bool} {a : Nat} {l : List Nat}
    {found : Option Nat} :
    selScan f k (a :: l) found =
      if k a = true then
        selScan f k l (some (match found with
          | none => a
          | some j => if f a < f j then a else j))
      else selScan f k l found := rfl

theorem selScan_cons_none {f : Nat → Nat} {k : Nat → Bool} {a : Nat} {l : List Nat} :
    selScan f k (a :: l) none =
      if k a = true then selScan f k l (some a) else selScan f k l none := rfl

theorem selScan_cons_some {f : Nat → Nat} {k : Nat → Bool} {a j : Nat} {l : List Nat} :
    selScan f k (a :: l) (some j) =
      if k a = true then selScan f k l (some (if f a < f j then a else j))
      else selScan f k l (some j) := rfl

theorem selScan_congr {f : Nat → Nat} {k1 k2 : Nat → Bool} :
    ∀ (l : List Nat) (found : Option Nat), (∀ i ∈ l, k1 i = k2 i) →
      selScan f k1 l found = selScan f k2 l found := by
  intro l
  induction l with
  | nil => intro found _; rfl
  | cons a l ih =>
    intro found hk
    unfold selScan
    rw [hk a (List.mem_cons_self a l)]
    by_cases ha : k2 a = true
    · rw [if_pos ha, if_pos ha]
      exact ih _ (fun i hi => hk i (List.mem_cons_of_mem a hi))
    · rw [if_neg ha, if_neg ha]
      exact ih _ (fun i hi => hk i (List.mem_cons_of_mem a hi))

theorem selScan_append {f : Nat → Nat} {k : Nat → Bool} :
    ∀ (l1 l2 : List Nat) (found : Option Nat),
      selScan f k (l1 ++ l2) found = selScan f k l2 (selScan f k l1 found) := by
  intro l1
  induction l1 with
  | nil => intro l2 found; rfl
  | cons a l1 ih =>
    intro l2 found
    rw [List.cons_append]
    rw [selScan_cons]
    conv =>
      rhs
      rw [selScan_cons]
    by_cases ha : k a = true
    · rw [if_pos ha, if_pos ha, ih]
    · rw [if_neg ha, if_neg ha, ih]

theorem selScan_skip {f : Nat → Nat} {k : Nat → Bool} :
    ∀ (l : List Nat) (found : Option Nat), (∀ i ∈ l, k i = false) →
      selScan f k l found = found := by
  intro l
  induction l with
  | nil => intro found _; rfl
  | cons a l ih =>
    intro found hk
    unfold selScan
    have ha : ¬(k a = true) := by
      rw [hk a (List.mem_cons_self a l)]
      simp
    rw [if_neg ha]
    exact ih _ (fun i hi => hk i (List.mem_cons_of_mem a hi))

theorem selScan_some_ne_none {f : Nat → Nat} {k : Nat → Bool} :
    ∀ (l : List Nat) (j : Nat), selScan f k l (some j) ≠ none := by
  intro l
  induction l with
  | nil => intro j h; exact Option.some_ne_none _ h
  | cons a l ih =>
    intro j
    unfold selScan
    by_cases ha : k a = true
    · rw [if_pos ha]
      exact ih _
    · rw [if_neg ha]
      exact ih _

theorem selScan_none_iff {f : Nat → Nat} {k : Nat → Bool} :
    ∀ (l : List Nat), (selScan f k l none = none ↔ ∀ i ∈ l, k i = false) := by
  intro l
  induction l with
  | nil => simp [selScan]
  | cons a l ih =>
    unfold selScan
    by_cases ha : k a = true
    · rw [if_pos ha]
      constructor
      · intro h
        exact absurd h (selScan_some_ne_none _ _)
      · intro h
        rw [h a (List.mem_cons_self a l)] at ha
        simp at ha
    · rw [if_neg ha]
      rw [ih]
      constructor
      · intro h i hi
        rcases List.mem_cons.mp hi with rfl | hi'
        · simpa using ha
        · exact h i hi'
      · intro h i hi
        exact h i (List.mem_cons_of_mem a hi)

theorem selScan_some_inv {f : Nat → Nat} {k : Nat → Bool} :
    ∀ (l : List Nat) (j c : Nat), List.Pairwise (· < ·) l →
      selScan f k l (some j) = some c →
      ((c = j ∧ ∀ i ∈ l, k i = true → f j ≤ f i) ∨
       (c ∈ l ∧ k c = true ∧ f c < f j ∧ (∀ i ∈ l, k i = true → f c ≤ f i) ∧
         (∀ i ∈ l, k i = true → i < c → f c < f i))) := by
  intro l
  induction l with
  | nil =>
    intro j c _ h
    exact Or.inl ⟨(Option.some.inj h).symm, by simp⟩
  | cons a l ih =>
    intro j c hp h
    rcases List.pairwise_cons.mp hp with ⟨halt, hpl⟩
    by_cases ha : k a = true
    · rw [selScan_cons_some, if_pos ha] at h
      by_cases hfa : f a < f j
      · rw [if_pos hfa] at h
        rcases ih a c hpl h with ⟨rfl, hmin⟩ | ⟨hcl, hkc, hfc, hmin, hfirst⟩
        · refine Or.inr ⟨List.mem_cons_self _ _, ha, hfa, ?_, ?_⟩
          · intro i hi hki
            rcases List.mem_cons.mp hi with rfl | hi'
            · exact le_rfl
            · exact hmin i hi' hki
          · intro i hi hki hic
            rcases List.mem_cons.mp hi with rfl | hi'
            · omega
            · have := halt i hi'
              omega
        · refine Or.inr ⟨List.mem_cons_of_mem a hcl, hkc, hfc.trans hfa, ?_, ?_⟩
          · intro i hi hki
            rcases List.mem_cons.mp hi with rfl | hi'
            · exact hfc.le
            · exact hmin i hi' hki
          · intro i hi hki hic
            rcases List.mem_cons.mp hi with rfl | hi'
            · exact hfc
            · exact hfirst i hi' hki hic
      · rw [if_neg hfa] at h
        rcases ih j c hpl h with ⟨rfl, hmin⟩ | ⟨hcl, hkc, hfc, hmin, hfirst⟩
        · refine Or.inl ⟨rfl, ?_⟩
          intro i hi hki
          rcases List.mem_cons.mp hi with rfl | hi'
          · omega
          · exact hmin i hi' hki
        · refine Or.inr ⟨List.mem_cons_of_mem a hcl, hkc, hfc, ?_, ?_⟩
          · intro i hi hki
            rcases List.mem_cons.mp hi with rfl | hi'
            · omega
            · exact hmin i hi' hki
          · intro i hi hki hic
            rcases List.mem_cons.mp hi with rfl | hi'
            · omega
            · exact hfirst i hi' hki hic
    · rw [selScan_cons_some, if_neg ha] at h
      rcases ih j c hpl h with ⟨rfl, hmin⟩ | ⟨hcl, hkc, hfc, hmin, hfirst⟩
      · refine Or.inl ⟨rfl, ?_⟩
        intro i hi hki
        rcases List.mem_cons.mp hi with rfl | hi'
        · exact absurd hki ha
        · exact hmin i hi' hki
      · refine Or.inr ⟨List.mem_cons_of_mem a hcl, hkc, hfc, ?_, ?_⟩
        · intro i hi hki
          rcases List.mem_cons.mp hi with rfl | hi'
          · exact absurd hki ha
          · exact hmin i hi' hki
        · intro i hi hki hic
          rcases List.mem_cons.mp hi with rfl | hi'
          · exact absurd hki ha
          · exact hfirst i hi' hki hic

theorem selScan_first_min {f : Nat → Nat} {k : Nat → Bool} :
    ∀ (l : List Nat) (c : Nat), List.Pairwise (· < ·) l →
      selScan f k l none = some c →
      c ∈ l ∧ k c = true ∧ (∀ i ∈ l, k i = true → f c ≤ f i) ∧
        (∀ i ∈ l, k i = true → i < c → f c < f i) := by
  intro l
  induction l with
  | nil =>
    intro c _ h
    simp [selScan] at h
  | cons a l ih =>
    intro c hp h
    rcases List.pairwise_cons.mp hp with ⟨halt, hpl⟩
    by_cases ha : k a = true
    · rw [selScan_cons_none, if_pos ha] at h
      rcases selScan_some_inv l a c hpl h with ⟨rfl, hmin⟩ | ⟨hcl, hkc, hfc, hmin, hfirst⟩
      · refine ⟨List.mem_cons_self _ _, ha, ?_, ?_⟩
        · intro i hi hki
          rcases List.mem_cons.mp hi with rfl | hi'
          · exact le_rfl
          · exact hmin i hi' hki
        · intro i hi hki hic
          rcases List.mem_cons.mp hi with rfl | hi'
          · omega
          · have := halt i hi'
            omega
      · refine ⟨List.mem_cons_of_mem a hcl, hkc, ?_, ?_⟩
        · intro i hi hki
          rcases List.mem_cons.mp hi with rfl | hi'
          · exact hfc.le
          · exact hmin i hi' hki
        · intro i hi hki hic
          rcases List.mem_cons.mp hi with rfl | hi'
          · exact hfc
          · exact hfirst i hi' hki hic
    · rw [selScan_cons_none, if_neg ha] at h
      obtain ⟨hcl, hkc, hmin, hfirst⟩ := ih c hpl h
      refine ⟨List.mem_cons_of_mem a hcl, hkc, ?_, ?_⟩
      · intro i hi hki
        rcases List.mem_cons.mp hi with rfl | hi'
        · exact absurd hki ha
        · exact hmin i hi' hki
      · intro i hi hki hic
        rcases List.mem_cons.mp hi with rfl | hi'
        · exact absurd hki ha
        · exact hfirst i hi' hki hic

theorem selScan_some_mem {f : Nat → Nat} {k : Nat → Bool} :
    ∀ (l : List Nat) (found : Option Nat) (c : Nat),
      selScan f k l found = some c →
      found = some c ∨ (c ∈ l ∧ k c = true) := by
  intro l
  induction l with
  | nil =>
    intro found c h
    exact Or.inl h
  | cons a l ih =>
    intro found c h
    rcases found with _ | j
    · rw [selScan_cons_none] at h
      by_cases ha : k a = true
      · rw [if_pos ha] at h
        rcases ih _ c h with hf | ⟨hcl, hkc⟩
        · have hc := Option.some.inj hf
          rw [← hc]
          exact Or.inr ⟨List.mem_cons_self _ _, ha⟩
        · exact Or.inr ⟨List.mem_cons_of_mem a hcl, hkc⟩
      · rw [if_neg ha] at h
        rcases ih _ c h with hf | ⟨hcl, hkc⟩
        · exact absurd hf (by simp)
        · exact Or.inr ⟨List.mem_cons_of_mem a hcl, hkc⟩
    · rw [selScan_cons_some] at h
      by_cases ha : k a = true
      · rw [if_pos ha] at h
        rcases ih _ c h with hf | ⟨hcl, hkc⟩
        · by_cases hfa : f a < f j
          · rw [if_pos hfa] at hf
            have hc := Option.some.inj hf
            rw [← hc]
            exact Or.inr ⟨List.mem_cons_self _ _, ha⟩
          · rw [if_neg hfa] at hf
            exact Or.inl hf
        · exact Or.inr ⟨List.mem_cons_of_mem a hcl, hkc⟩
      · rw [if_neg ha] at h
        rcases ih _ c h with hf | ⟨hcl, hkc⟩
        · exact Or.inl hf
        · exact Or.inr ⟨List.mem_cons_of_mem a hcl, hkc⟩

/-! ### usize arithmetic facts -/

theorem wsub_of_le {a b : Nat} (h : b ≤ a) : wsub a b = a - b := by
  unfold wsub
  rw [if_pos h]

theorem wsub_len_pos {n : Nat} (h : 1 ≤ n) : wsub n 1 = n - 1 := wsub_of_le h

theorem wstart_eq {pl pos : Nat} (hpl : 2 ≤ pl) (hpos : pl - 1 ≤ pos) (hW : pos < USIZE) :
    (wsub pos pl + 1) % USIZE = pos + 1 - pl ∧ (wsub pos pl + 2) % USIZE = pos + 2 - pl := by
  have hU : USIZE = 18446744073709551616 := rfl
  unfold wsub
  by_cases hle : pl ≤ pos
  · rw [if_pos hle, hU]
    rw [hU] at hW
    constructor <;> [rw [Nat.mod_eq_of_lt (by omega)]; rw [Nat.mod_eq_of_lt (by omega)]] <;> omega
  · rw [if_neg hle, hU]
    rw [hU] at hW
    have hp1 : pos = pl - 1 := by omega
    have h1 : pos + 18446744073709551616 - pl + 1 = 18446744073709551616 := by omega
    have h2 : pos + 18446744073709551616 - pl + 2 = 18446744073709551616 + 1 := by omega
    rw [h1, h2, Nat.mod_self, Nat.add_mod_left, Nat.mod_eq_of_lt (by omega)]
    omega

/-! ### Verified candidates: byte agreement and bucket membership -/

theorem valid_prefixTbl {pats : List (List Nat)} {t : TwoByteWM} (hnew : new pats = some t) :
    t.prefixTbl = t.needles.map (fun p => ((p.2.getD 0 0) <<< 8) + p.2.getD 1 0) := by
  obtain ⟨-, -, -, -, ht⟩ := new_inv hnew
  rw [ht, mkTable_prefixTbl]

theorem needle_getD_mem {t : TwoByteWM} {i : Nat} (hi : i < t.needles.length) :
    t.needles.getD i (0, []) ∈ t.needles := by
  rw [List.getD_eq_getElem _ _ hi]
  exact List.getElem_mem hi

theorem pat_len_le {pats : List (List Nat)} {t : TwoByteWM} (hnew : new pats = some t)
    {i : Nat} (hi : i < t.needles.length) :
    t.pat_len ≤ (pat t i).length := by
  exact valid_needle_len hnew (needle_getD_mem hi)

theorem matcher_getD {p hay : List Nat} {s : Nat}
    (hm : p.isPrefixOf (hay.drop s) = true) {j : Nat} (hj : j < p.length) :
    hay.getD (s + j) 0 = p.getD j 0 := by
  have hpre : p <+: hay.drop s := List.isPrefixOf_iff_prefix.mp hm
  have hlen : p.length ≤ (hay.drop s).length := hpre.length_le
  have hjd : j < (hay.drop s).length := lt_of_lt_of_le hj hlen
  have hsj : s + j < hay.length := by
    rw [List.length_drop] at hjd
    omega
  have h1 : p[j] = (hay.drop s)[j] := hpre.getElem hj
  have h2 : (hay.drop s)[j] = hay[s + j] := List.getElem_drop hay
  rw [List.getD_eq_getElem _ _ hj, List.getD_eq_getElem _ _ hsj, h1, h2]

theorem matcher_crit {pats : List (List Nat)} {t : TwoByteWM} (hnew : new pats = some t)
    {hay : List Nat} {s i : Nat} (hi : i < t.needles.length)
    (hm : (pat t i).isPrefixOf (hay.drop s) = true) :
    chN t i = hash_fn (hay.getD (s + (t.pat_len - 2)) 0)
      (hay.getD (s + (t.pat_len - 1)) 0) := by
  have hpl := valid_pat_len hnew
  have hle := pat_len_le hnew hi
  unfold chN criticalHash
  rw [matcher_getD hm (by omega), matcher_getD hm (by omega)]

theorem matcher_prefixOk {pats : List (List Nat)} {t : TwoByteWM} (hnew : new pats = some t)
    {hay : List Nat} {s i : Nat} (hi : i < t.needles.length)
    (hm : (pat t i).isPrefixOf (hay.drop s) = true) :
    t.prefixTbl.getD i 0 = ((hay.getD s 0) <<< 8) + hay.getD (s + 1) 0 := by
  have hpl := valid_pat_len hnew
  have hle := pat_len_le hnew hi
  have hplen : i < t.prefixTbl.length := by
    rw [valid_prefixTbl hnew, List.length_map]
    exact hi
  have hmap : t.prefixTbl[i]? =
      some (((pat t i).getD 0 0 <<< 8) + (pat t i).getD 1 0) := by
    rw [valid_prefixTbl hnew, List.getElem?_map, List.getElem?_eq_getElem hi]
    unfold pat
    rw [List.getD_eq_getElem _ _ hi]
    rfl
  rw [List.getD_eq_getElem?_getD, hmap, Option.getD_some,
    ← matcher_getD hm (show (0 : Nat) < (pat t i).length by omega),
    ← matcher_getD hm (show (1 : Nat) < (pat t i).length by omega), Nat.add_zero]

theorem bucketKeep_eq_matcher {pats : List (List Nat)} {t : TwoByteWM}
    (hnew : new pats = some t) {hay : List Nat} {s : Nat} {i : Nat}
    (hi : i < t.needles.length) :
    bucketKeep t hay s (((hay.getD s 0) <<< 8) + hay.getD (s + 1) 0) i =
      (pat t i).isPrefixOf (hay.drop s) := by
  unfold bucketKeep
  cases hb : (pat t i).isPrefixOf (hay.drop s) with
  | false => rw [Bool.and_false]
  | true =>
    rw [Bool.and_true, matcher_prefixOk hnew hi hb]
    simp

theorem bucket_scan_eq {pats : List (List Nat)} {t : TwoByteWM} (hnew : new pats = some t)
    {hay : List Nat} {s h : Nat}
    (hcrit : hash_fn (hay.getD (s + (t.pat_len - 2)) 0)
      (hay.getD (s + (t.pat_len - 1)) 0) = h)
    (hz : t.shift h = 0) :
    scanBucket t hay s (((hay.getD s 0) <<< 8) + hay.getD (s + 1) 0)
        (List.range' (t.hash h) (t.hash (h + 1) - t.hash h)) none
      = refScan t hay s (List.range t.needles.length) none := by
  obtain ⟨e, he, hch⟩ := shift_zero_crit hnew hz
  have hne : ∃ i, i < t.needles.length ∧ chN t i = h := by
    obtain ⟨i, hi, hei⟩ := List.mem_iff_getElem.mp he
    refine ⟨i, hi, ?_⟩
    unfold chN pat
    rw [List.getD_eq_getElem _ _ hi, hei]
    exact hch
  obtain ⟨hmono, hub⟩ := hash_range_bounds hnew hne
  have hmatch_in : ∀ i, i < t.needles.length →
      (pat t i).isPrefixOf (hay.drop s) = true →
      (t.hash h ≤ i ∧ i < t.hash (h + 1)) := by
    intro i hi hm
    rw [hash_range_iff hnew hne hi]
    rw [matcher_crit hnew hi hm]
    exact hcrit
  have hmatch_false : ∀ i, i < t.needles.length →
      ¬(t.hash h ≤ i ∧ i < t.hash (h + 1)) →
      (pat t i).isPrefixOf (hay.drop s) = false := by
    intro i hi hout
    cases hb : (pat t i).isPrefixOf (hay.drop s) with
    | false => rfl
    | true => exact absurd (hmatch_in i hi hb) hout
  have hsplit : List.range t.needles.length =
      (List.range' 0 (t.hash h) ++
        List.range' (t.hash h) (t.hash (h + 1) - t.hash h)) ++
        List.range' (t.hash (h + 1)) (t.needles.length - t.hash (h + 1)) := by
    have e1 : List.range' 0 (t.hash h) ++
        List.range' (t.hash h) (t.hash (h + 1) - t.hash h) =
        List.range' 0 (t.hash (h + 1)) := by
      have := List.range'_append 0 (t.hash h) (t.hash (h + 1) - t.hash h) 1
      simp only [Nat.one_mul, Nat.zero_add] at this
      rw [this]
      congr 1
      omega
    have e2 : List.range' 0 (t.hash (h + 1)) ++
        List.range' (t.hash (h + 1)) (t.needles.length - t.hash (h + 1)) =
        List.range' 0 t.needles.length := by
      have := List.range'_append 0 (t.hash (h + 1))
        (t.needles.length - t.hash (h + 1)) 1
      simp only [Nat.one_mul, Nat.zero_add] at this
      rw [this]
      congr 1
      omega
    rw [e1, e2, List.range_eq_range']
  unfold scanBucket refScan
  rw [hsplit, selScan_append, selScan_append]
  have hleft : selScan (fun i => (pat t i).length)
      (fun i => (pat t i).isPrefixOf (hay.drop s)) (List.range' 0 (t.hash h)) none =
      none := by
    apply selScan_skip
    intro i hi
    rw [List.mem_range'] at hi
    obtain ⟨v, hv, rfl⟩ := hi
    refine hmatch_false _ (by omega) ?_
    intro hcon
    omega
  have hright : ∀ found, selScan (fun i => (pat t i).length)
      (fun i => (pat t i).isPrefixOf (hay.drop s))
      (List.range' (t.hash (h + 1)) (t.needles.length - t.hash (h + 1))) found =
      found := by
    intro found
    apply selScan_skip
    intro i hi
    rw [List.mem_range'] at hi
    obtain ⟨v, hv, rfl⟩ := hi
    refine hmatch_false _ (by omega) ?_
    intro hcon
    omega
  rw [hleft, hright]
  apply selScan_congr
  intro i hi
  rw [List.mem_range'] at hi
  obtain ⟨v, hv, rfl⟩ := hi
  exact bucketKeep_eq_matcher hnew (by omega)

/-! ### Skip safety and loop equivalence -/

theorem findLoop_oob (t : TwoByteWM) (hay : List Nat) (pos : Nat)
    (h : ¬(pos ≤ wsub hay.length 1)) : findLoop t hay pos = .ok none := by
  rw [findLoop, dif_neg h]

theorem refLoop_oob (t : TwoByteWM) (hay : List Nat) (pos : Nat)
    (h : ¬(pos + 1 ≤ hay.length)) : refLoop t hay pos = none := by
  rw [refLoop, if_neg h]

theorem skip_safe {pats : List (List Nat)} {t : TwoByteWM} (hnew : new pats = some t)
    {hay : List Nat} {pos w : Nat} (hpos : t.pat_len - 1 ≤ pos) (hw1 : pos ≤ w)
    (hw2 : w < pos + t.shift (hash_fn (hay.getD (wsub pos 1) 0) (hay.getD pos 0))) :
    ∀ i, i < t.needles.length →
      (pat t i).isPrefixOf (hay.drop (w + 1 - t.pat_len)) = false := by
  have hpl := valid_pat_len hnew
  have hshub := shift_le_default hnew
    (hash_fn (hay.getD (wsub pos 1) 0) (hay.getD pos 0))
  intro i hi
  cases hb : (pat t i).isPrefixOf (hay.drop (w + 1 - t.pat_len)) with
  | false => rfl
  | true =>
    exfalso
    have hple := pat_len_le hnew hi
    have hwsub : wsub pos 1 = pos - 1 := wsub_of_le (by omega)
    set j := t.pat_len - 2 - (w - pos) with hj
    have hjlt : j < t.pat_len - 1 := by omega
    have hidx1 : (w + 1 - t.pat_len) + j = pos - 1 := by omega
    have hidx2 : (w + 1 - t.pat_len) + (j + 1) = pos := by omega
    have hb1 : hay.getD (pos - 1) 0 = (pat t i).getD j 0 := by
      rw [← hidx1]
      exact matcher_getD hb (by omega)
    have hb2 : hay.getD pos 0 = (pat t i).getD (j + 1) 0 := by
      rw [← hidx2]
      exact matcher_getD hb (by omega)
    have hhash : hash_fn ((t.needles.getD i (0, [])).2.getD j 0)
        ((t.needles.getD i (0, [])).2.getD (j + 1) 0) =
        hash_fn (hay.getD (wsub pos 1) 0) (hay.getD pos 0) := by
      rw [hwsub, hb1, hb2]
      rfl
    have hle := shift_le_of_window hnew (needle_getD_mem hi) hjlt hhash
    omega

theorem refLoop_skip {t : TwoByteWM} {hay : List Nat} : ∀ (k pos : Nat),
    (∀ w, pos ≤ w → w < pos + k → w + 1 ≤ hay.length →
      refScan t hay (w + 1 - t.pat_len) (List.range t.needles.length) none = none) →
    refLoop t hay pos = refLoop t hay (pos + k) := by
  intro k
  induction k with
  | zero => intro pos _; rfl
  | succ k ih =>
    intro pos hno
    by_cases h1 : pos + 1 ≤ hay.length
    · have hstep : refLoop t hay pos = refLoop t hay (pos + 1) := by
        rw [refLoop, if_pos h1]
        simp only []
        rw [hno pos le_rfl (by omega) h1]
      rw [hstep]
      have hrest := ih (pos + 1) (fun w hwa hwb hwc => hno w (by omega) (by omega) hwc)
      rw [hrest]
      congr 1
      omega
    · rw [refLoop_oob _ _ _ h1, refLoop_oob]
      intro hcon
      omega

theorem findLoop_eq_refLoop {pats : List (List Nat)} {t : TwoByteWM}
    (hnew : new pats = some t) {hay : List Nat} (hW : hay.length < USIZE)
    (hlen : 1 ≤ hay.length) :
    ∀ n pos, hay.length ≤ pos + n → t.pat_len - 1 ≤ pos →
      findLoop t hay pos = .ok (refLoop t hay pos) := by
  have hpl := valid_pat_len hnew
  intro n
  induction n with
  | zero =>
    intro pos hn hpos
    have hoob1 : ¬(pos ≤ wsub hay.length 1) := by
      rw [wsub_len_pos hlen]
      omega
    rw [findLoop_oob _ _ _ hoob1, refLoop_oob _ _ _ (by omega)]
  | succ n ih =>
    intro pos hn hpos
    by_cases hin : pos + 1 ≤ hay.length
    swap
    · have hoob1 : ¬(pos ≤ wsub hay.length 1) := by
        rw [wsub_len_pos hlen]
        omega
      rw [findLoop_oob _ _ _ hoob1, refLoop_oob _ _ _ hin]
    · have hpos1 : pos ≤ wsub hay.length 1 := by
        rw [wsub_len_pos hlen]
        omega
      have hw1 : wsub pos 1 = pos - 1 := wsub_of_le (by omega)
      have hix : wsub pos 1 < hay.length ∧ pos < hay.length := by
        rw [hw1]
        omega
      rw [findLoop, dif_pos hpos1, dif_pos hix]
      simp only []
      by_cases hz : t.shift (hash_fn (hay.getD (wsub pos 1) 0) (hay.getD pos 0)) = 0
      · rw [dif_pos hz]
        obtain ⟨hs1, hs2⟩ := wstart_eq hpl hpos (by omega)
        rw [hs1, hs2]
        have hab : pos + 1 - t.pat_len < hay.length ∧ pos + 2 - t.pat_len < hay.length :=
          ⟨by omega, by omega⟩
        rw [dif_pos hab]
        have hidx1 : (pos + 1 - t.pat_len) + (t.pat_len - 2) = pos - 1 := by omega
        have hidx2 : (pos + 1 - t.pat_len) + (t.pat_len - 1) = pos := by omega
        have hcrit : hash_fn (hay.getD ((pos + 1 - t.pat_len) + (t.pat_len - 2)) 0)
            (hay.getD ((pos + 1 - t.pat_len) + (t.pat_len - 1)) 0) =
            hash_fn (hay.getD (wsub pos 1) 0) (hay.getD pos 0) := by
          rw [hidx1, hidx2, hw1]
        have hpfx2 : pos + 2 - t.pat_len = (pos + 1 - t.pat_len) + 1 := by omega
        rw [hpfx2]
        rw [bucket_scan_eq hnew hcrit hz]
        rw [refLoop, if_pos hin]
        simp only []
        cases hscan : refScan t hay (pos + 1 - t.pat_len)
            (List.range t.needles.length) none with
        | some c => rfl
        | none => exact ih (pos + 1) (by omega) (by omega)
      · rw [dif_neg hz]
        have hzpos : 1 ≤ t.shift (hash_fn (hay.getD (wsub pos 1) 0) (hay.getD pos 0)) :=
          Nat.pos_of_ne_zero hz
        rw [ih (pos + t.shift (hash_fn (hay.getD (wsub pos 1) 0) (hay.getD pos 0)))
          (by omega) (by omega)]
        have hskip := @refLoop_skip t hay
          (t.shift (hash_fn (hay.getD (wsub pos 1) 0) (hay.getD pos 0))) pos ?_
        · rw [hskip]
        · intro w hwa hwb hwc
          unfold refScan
          rw [selScan_none_iff]
          intro i hi
          exact skip_safe hnew hpos hwa hwb i (List.mem_range.mp hi)

theorem find_from_eq_ref {pats : List (List Nat)} {t : TwoByteWM}
    (hnew : new pats = some t) {hay : List Nat} (hW : hay.length < USIZE)
    (hlen : 1 ≤ hay.length) (offset : Nat) :
    find_from t hay offset = .ok (refFind_from t hay offset) := by
  have hpl := valid_pat_len hnew
  unfold find_from refFind_from
  have hws : wsub (offset + t.pat_len) 1 = offset + t.pat_len - 1 :=
    wsub_of_le (by omega)
  rw [hws]
  exact findLoop_eq_refLoop hnew hW hlen hay.length (offset + t.pat_len - 1)
    (by omega) (by omega)

/-! ### Sequence-level equivalence -/

theorem collect_eq_refSeq {pats : List (List Nat)} {t : TwoByteWM}
    (hnew : new pats = some t) {hay : List Nat} (hW : hay.length < USIZE)
    (hlen : 1 ≤ hay.length) :
    ∀ n cur, (Matches.mk t hay cur).collect n = .ok (refSeq t hay n cur) := by
  intro n
  induction n with
  | zero => intro cur; rfl
  | succ n ih =>
    intro cur
    have hnext : (Matches.mk t hay cur).next =
        match refFind_from t hay cur with
        | none => .ok none
        | some m => .ok (some (m, Matches.mk t hay m.«end»)) := by
      unfold Matches.next
      simp only []
      rw [find_from_eq_ref hnew hW hlen cur]
      cases refFind_from t hay cur with
      | none => rfl
      | some m => rfl
    rw [Matches.collect, hnext]
    cases href : refFind_from t hay cur with
    | none =>
      simp only [refSeq, href]
    | some m =>
      simp only [refSeq, href]
      rw [ih m.«end»]

/-! ### Claim C1: equivalence with the reference scan -/

/-- C1 (amended): for every valid pattern set and every *nonempty* haystack of
machine-representable length, the sequence of matches produced by `find` equals
the sequence produced by the reference multi-pattern scan that visits every
window position left to right and applies the same shortest-match tie-break at
each position; in particular the `shift[h] > 0` skips never jump past a
position where a match ends.  (On the empty haystack `find` instead panics via
the `haystack.len() - 1` underflow — see the counterexample.) -/
theorem C1_find_equiv {pats : List (List Nat)} {t : TwoByteWM} {hay : List Nat}
    (hnew : new pats = some t) (hW : hay.length < USIZE) (hlen : 1 ≤ hay.length)
    (n : Nat) :
    (find t hay).collect n = .ok (refSeq t hay n 0) :=
  collect_eq_refSeq hnew hW hlen n 0

/-! ### Claim C9: determinism and fresh initialization of `find` -/

/-- C9: `find` returns a freshly initialized cursor over the same immutable
table and haystack, starting at offset 0; two `find` calls on the same table
and haystack yield identical sequences (the model is pure, so the sequences
are equal definitionally). -/
theorem C9_determinism (t : TwoByteWM) (hay : List Nat) (n : Nat) (it1 it2 : Matches)
    (h1 : it1 = find t hay) (h2 : it2 = find t hay) :
    it1.collect n = it2.collect n ∧ it1.cur_pos = 0 ∧ it1.wm = t ∧
      it1.haystack = hay := by
  subst h1
  subst h2
  exact ⟨rfl, rfl, rfl, rfl⟩

theorem C9_determinism_witness :
    (find qbTable qbHay).collect 4 = (find qbTable qbHay).collect 4 ∧
      (find qbTable qbHay).cur_pos = 0 ∧ (find qbTable qbHay).wm = qbTable ∧
      (find qbTable qbHay).haystack = qbHay :=
  C9_determinism qbTable qbHay 4 (find qbTable qbHay) (find qbTable qbHay) rfl rfl

unseal findLoop refLoop

theorem C1_find_equiv_witness :
    (new qbPats = some qbTable ∧ qbHay.length < USIZE ∧ 1 ≤ qbHay.length) ∧
      (find qbTable qbHay).collect 3 = .ok (refSeq qbTable qbHay 3 0) :=
  ⟨⟨rfl, by decide, by decide⟩,
    @C1_find_equiv qbPats qbTable qbHay rfl (by decide) (by decide) 3⟩

/-- C1 counterexample: on the empty haystack the claim's "every haystack"
fails — `find`'s enumeration panics (the `Except.error` branch, from the
`haystack.len() - 1` underflow followed by an out-of-bounds read), while the
reference scan yields the empty sequence. -/
theorem C1_counterexample :
    (find qbTable ([] : List Nat)).collect 1 = .error () ∧
      refSeq qbTable ([] : List Nat) 1 0 = [] :=
  ⟨rfl, rfl⟩

/-! ### Claim C3: haystacks shorter than the minimum pattern length -/

/-- C3: the code violates the claim at the empty haystack: `find_from` reaches
the error branch (in Rust: `haystack.len() - 1` underflows — a panic in a
debug build; in a release build it wraps to `2^64 - 1` and the loop body then
reads `haystack[pos - 1]` out of bounds, which panics in any build).  The
explicit early-return guard demanded by the spec is absent. -/
theorem C3_empty_haystack_panics :
    new qbPats = some qbTable ∧ find_from qbTable ([] : List Nat) 0 = .error () :=
  ⟨rfl, rfl⟩

/-! ### Claim C10: the doctest scenario -/

set_option maxRecDepth 8000 in
/-- C10: on patterns `["quick", "brown", "lazy", "wombat"]` and haystack
`"The quick brown fox jumps over the lazy dog."`, the first match yielded by
`find` is `{start := 4, end := 9, patternIndex := 0}`. -/
theorem C10_first_match :
    new qbPats = some qbTable ∧
      (find qbTable qbHay).collect 1 = .ok [⟨4, 9, 0⟩] :=
  ⟨rfl, by rfl⟩

/-! ### Soundness of returned matches -/

theorem valid_pat_len_ub {pats : List (List Nat)} {t : TwoByteWM}
    (hnew : new pats = some t) : t.pat_len ≤ 65535 := by
  obtain ⟨-, -, -, hub, ht⟩ := new_inv hnew
  rw [ht, mkTable_pat_len]
  exact hub

theorem refLoop_sound {pats : List (List Nat)} {t : TwoByteWM} (hnew : new pats = some t)
    {hay : List Nat} :
    ∀ n pos m, hay.length ≤ pos + n → refLoop t hay pos = some m →
      pos ≤ m.start + t.pat_len - 1 ∧
      ∃ c, c < t.needles.length ∧ (pat t c).isPrefixOf (hay.drop m.start) = true ∧
        m.«end» = m.start + (pat t c).length ∧ m.pat_idx = pat_idx t c := by
  have hpl := valid_pat_len hnew
  intro n
  induction n with
  | zero =>
    intro pos m hn h
    rw [refLoop_oob _ _ _ (by omega)] at h
    exact absurd h (by simp)
  | succ n ih =>
    intro pos m hn h
    by_cases h1 : pos + 1 ≤ hay.length
    · rw [refLoop, if_pos h1] at h
      simp only [] at h
      cases hscan : refScan t hay (pos + 1 - t.pat_len)
          (List.range t.needles.length) none with
      | some c =>
        rw [hscan] at h
        have hm := Option.some.inj h
        obtain hmem := selScan_some_mem _ _ _ hscan
        rcases hmem with hcon | ⟨hcr, hkc⟩
        · exact absurd hcon (by simp)
        · have hc : c < t.needles.length := List.mem_range.mp hcr
          subst hm
          refine ⟨by show pos ≤ pos + 1 - t.pat_len + t.pat_len - 1; omega,
            c, hc, hkc, rfl, rfl⟩
      | none =>
        rw [hscan] at h
        have hind := ih (pos + 1) m (by omega) h
        exact ⟨by omega, hind.2⟩
    · rw [refLoop_oob _ _ _ h1] at h
      exact absurd h (by simp)

theorem refFind_from_sound {pats : List (List Nat)} {t : TwoByteWM}
    (hnew : new pats = some t) {hay : List Nat} {offset : Nat} {m : Match}
    (h : refFind_from t hay offset = some m) :
    offset ≤ m.start ∧ m.start < m.«end» ∧
      ∃ c, c < t.needles.length ∧ (pat t c).isPrefixOf (hay.drop m.start) = true ∧
        m.«end» = m.start + (pat t c).length ∧ m.pat_idx = pat_idx t c := by
  have hpl := valid_pat_len hnew
  unfold refFind_from at h
  obtain ⟨hpos, c, hc, hpre, hend, hidx⟩ :=
    refLoop_sound hnew (hay.length + offset + t.pat_len) _ m (by omega) h
  have hlen2 := pat_len_le hnew hc
  exact ⟨by omega, by omega, c, hc, hpre, hend, hidx⟩

theorem find_from_nil {pats : List (List Nat)} {t : TwoByteWM}
    (hnew : new pats = some t) : find_from t ([] : List Nat) 0 = .error () := by
  have hpl := valid_pat_len hnew
  have hub := valid_pat_len_ub hnew
  have hU : USIZE = 18446744073709551616 := rfl
  unfold find_from
  rw [findLoop]
  have hp1 : wsub (0 + t.pat_len) 1 = 0 + t.pat_len - 1 := wsub_of_le (by omega)
  have hp2 : wsub ([] : List Nat).length 1 = USIZE - 1 := by
    unfold wsub
    rw [if_neg (by simp)]
    rfl
  rw [dif_pos (by rw [hp1, hp2, hU]; omega)]
  rw [dif_neg (by intro hcon; exact absurd hcon.2 (by simp))]

/-! ### Claim C5: soundness of every returned match -/

/-- C5: every `Match` returned by `find_from` designates a valid original
pattern index, spans exactly that pattern's bytes (hence at least 2), matches
the haystack slice byte for byte, and starts at or after the given offset. -/
theorem C5_match_sound {pats : List (List Nat)} {t : TwoByteWM} {hay : List Nat}
    {offset : Nat} {m : Match} (hnew : new pats = some t) (hW : hay.length < USIZE)
    (hfind : find_from t hay offset = .ok (some m)) :
    m.pat_idx < pats.length ∧
      (∃ p, pats[m.pat_idx]? = some p ∧ m.«end» - m.start = p.length ∧ 2 ≤ p.length ∧
        (hay.drop m.start).take (m.«end» - m.start) = p) ∧
      offset ≤ m.start := by
  have hpl := valid_pat_len hnew
  by_cases hlen : 1 ≤ hay.length
  swap
  · exfalso
    have hay0 : hay = [] := List.eq_nil_of_length_eq_zero (by omega)
    subst hay0
    unfold find_from at hfind
    rw [findLoop] at hfind
    split at hfind
    · rw [dif_neg (by intro hcon; exact absurd hcon.2 (by simp))] at hfind
      exact absurd hfind (by simp)
    · exact absurd hfind (by simp)
  · rw [find_from_eq_ref hnew hW hlen offset] at hfind
    have href : refFind_from t hay offset = some m := Except.ok.inj hfind
    obtain ⟨hoff, hlt, c, hc, hpre, hend, hidx⟩ := refFind_from_sound hnew href
    have hmem := valid_mem hnew (needle_getD_mem hc)
    have hlen2 := pat_len_le hnew hc
    refine ⟨by rw [hidx]; exact hmem.1, ⟨pat t c, ?_, by omega, by omega, ?_⟩, hoff⟩
    · rw [hidx]
      exact hmem.2
    · rw [show m.«end» - m.start = (pat t c).length from by omega]
      exact (List.prefix_iff_eq_take.mp (List.isPrefixOf_iff_prefix.mp hpre)).symm

theorem C5_match_sound_witness :
    ((⟨0, 2, 0⟩ : Match).pat_idx < abPats.length ∧
      (∃ p, abPats[(⟨0, 2, 0⟩ : Match).pat_idx]? = some p ∧
        (⟨0, 2, 0⟩ : Match).«end» - (⟨0, 2, 0⟩ : Match).start = p.length ∧
        2 ≤ p.length ∧
        (([97, 98, 99] : List Nat).drop (⟨0, 2, 0⟩ : Match).start).take
          ((⟨0, 2, 0⟩ : Match).«end» - (⟨0, 2, 0⟩ : Match).start) = p) ∧
      0 ≤ (⟨0, 2, 0⟩ : Match).start) :=
  @C5_match_sound abPats abTable [97, 98, 99] 0 ⟨0, 2, 0⟩ rfl (by decide) (by rfl)

/-! ### Claim C8: non-overlapping, strictly ordered match sequences -/

theorem refSeq_sound {pats : List (List Nat)} {t : TwoByteWM} (hnew : new pats = some t)
    {hay : List Nat} :
    ∀ n cur ms, refSeq t hay n cur = ms →
      (∀ m ∈ ms, cur ≤ m.start ∧ m.start < m.«end») ∧
      List.Chain' (fun a b => a.«end» ≤ b.start ∧ a.start < b.start ∧ a.«end» < b.«end»)
        ms := by
  intro n
  induction n with
  | zero =>
    intro cur ms h
    rw [refSeq] at h
    subst h
    exact ⟨by simp, List.chain'_nil⟩
  | succ n ih =>
    intro cur ms h
    rw [refSeq] at h
    cases href : refFind_from t hay cur with
    | none =>
      rw [href] at h
      subst h
      exact ⟨by simp, List.chain'_nil⟩
    | some m =>
      rw [href] at h
      subst h
      obtain ⟨hcur, hlt, -⟩ := refFind_from_sound hnew href
      obtain ⟨hmem, hchain⟩ := ih m.«end» (refSeq t hay n m.«end») rfl
      constructor
      · intro m' hm'
        rcases List.mem_cons.mp hm' with rfl | hm''
        · exact ⟨hcur, hlt⟩
        · have hp := hmem m' hm''
          exact ⟨by omega, hp.2⟩
      · rw [List.chain'_cons']
        refine ⟨?_, hchain⟩
        intro b hb
        have hbmem : b ∈ refSeq t hay n m.«end» := List.mem_of_mem_head? hb
        have hbp := hmem b hbmem
        exact ⟨hbp.1, by omega, by omega⟩

/-- C8: in any sequence yielded by one `find` enumeration, each match starts at
or after the previous match's end, every match is nonempty, and the sequence is
strictly increasing in both `start` and `end`. -/
theorem C8_no_overlap {pats : List (List Nat)} {t : TwoByteWM} {hay : List Nat}
    {n : Nat} {ms : List Match} (hnew : new pats = some t) (hW : hay.length < USIZE)
    (hcol : (find t hay).collect n = .ok ms) :
    (∀ m ∈ ms, m.start < m.«end») ∧
      List.Chain' (fun a b => a.«end» ≤ b.start ∧ a.start < b.start ∧ a.«end» < b.«end»)
        ms := by
  by_cases hlen : 1 ≤ hay.length
  · have hcol' : (Matches.mk t hay 0).collect n = .ok ms := hcol
    rw [collect_eq_refSeq hnew hW hlen n 0] at hcol'
    have hms := Except.ok.inj hcol' 
    obtain ⟨hmem, hchain⟩ := refSeq_sound hnew n 0 ms hms
    exact ⟨fun m hm => (hmem m hm).2, hchain⟩
  · have hay0 : hay = [] := List.eq_nil_of_length_eq_zero (by omega)
    subst hay0
    cases n with
    | zero =>
      have hms : ms = [] := (Except.ok.inj hcol).symm
      subst hms
      exact ⟨by simp, List.chain'_nil⟩
    | succ n =>
      exfalso
      rw [Matches.collect] at hcol
      have hnext : (find t ([] : List Nat)).next = .error () := by
        unfold Matches.next find
        simp only []
        rw [find_from_nil hnew]
      rw [hnext] at hcol
      exact absurd hcol (by simp)

theorem C8_no_overlap_witness :
    (∀ m ∈ ([⟨0, 2, 0⟩, ⟨2, 4, 0⟩] : List Match), m.start < m.«end») ∧
      List.Chain' (fun a b => a.«end» ≤ b.start ∧ a.start < b.start ∧ a.«end» < b.«end»)
        ([⟨0, 2, 0⟩, ⟨2, 4, 0⟩] : List Match) :=
  @C8_no_overlap abPats abTable [97, 98, 97, 98, 99] 3 [⟨0, 2, 0⟩, ⟨2, 4, 0⟩]
    rfl (by decide) (by rfl)

/-! ### Claim C4: shortest match, first-in-bucket tie break -/

theorem hash_ub {pats : List (List Nat)} {t : TwoByteWM} (hnew : new pats = some t)
    (h' : Nat) : t.hash h' ≤ t.needles.length := by
  rw [hash_eq_build hnew, buildHash_eq_foldFrom]
  have hspec := hashFoldFrom_spec (valid_sorted hnew) t.needles.length 0 (by omega) h'
  have hcLt : cLt t.pat_len t.needles h' ≤ t.needles.length := List.countP_le_length _
  by_cases hE1 : ∃ i, 0 ≤ i ∧ i < t.needles.length ∧ chIdx t.pat_len t.needles i = h'
  · rw [hspec.1 hE1, Nat.max_eq_left (Nat.zero_le _)]
    exact hcLt
  · by_cases hE2 : ∃ i, 0 ≤ i ∧ i < t.needles.length ∧ chIdx t.pat_len t.needles i + 1 = h'
    · rw [hspec.2.1 hE1 hE2]
      exact hcLt
    · rw [hspec.2.2 hE1 hE2]
      omega

theorem shift_zero_of_crit {pats : List (List Nat)} {t : TwoByteWM}
    (hnew : new pats = some t) {i h : Nat} (hi : i < t.needles.length)
    (hch : chN t i = h) : t.shift h = 0 := by
  have hpl := valid_pat_len hnew
  have hj : t.pat_len - 2 < t.pat_len - 1 := by omega
  have hhash : hash_fn ((t.needles.getD i (0, [])).2.getD (t.pat_len - 2) 0)
      ((t.needles.getD i (0, [])).2.getD (t.pat_len - 2 + 1) 0) = h := by
    rw [show t.pat_len - 2 + 1 = t.pat_len - 1 from by omega]
    exact hch
  have := shift_le_of_window hnew (needle_getD_mem hi) hj hhash
  omega

/-- C4: whenever the scan reaches a position whose hash bucket holds at least
one fully verified candidate, `find_from`'s loop returns immediately the match
of the candidate with the fewest bytes — ties of equal length go to the
candidate encountered first in the bucket's sorted layout — and the reported
`pat_idx` is the candidate's original caller-supplied index. -/
theorem C4_shortest_tie_break {pats : List (List Nat)} {t : TwoByteWM} {hay : List Nat}
    {pos : Nat} (hnew : new pats = some t) (hW : hay.length < USIZE)
    (hpos : t.pat_len - 1 ≤ pos) (hlt : pos < hay.length)
    (hv : verifiedAt t hay pos ≠ []) :
    ∃ c ∈ verifiedAt t hay pos,
      (∀ i ∈ verifiedAt t hay pos, (pat t c).length ≤ (pat t i).length) ∧
      (∀ i ∈ verifiedAt t hay pos, i < c → (pat t c).length < (pat t i).length) ∧
      pat_idx t c < pats.length ∧ pats[pat_idx t c]? = some (pat t c) ∧
      findLoop t hay pos = .ok (some ⟨pos + 1 - t.pat_len,
        (pos + 1 - t.pat_len) + (pat t c).length, pat_idx t c⟩) := by
  have hpl := valid_pat_len hnew
  obtain ⟨hs1, hs2⟩ := wstart_eq hpl hpos (by omega)
  have hw1 : wsub pos 1 = pos - 1 := wsub_of_le (by omega)
  have hva : verifiedAt t hay pos =
      (List.range' (t.hash (hash_fn (hay.getD (wsub pos 1) 0) (hay.getD pos 0)))
          (t.hash (hash_fn (hay.getD (wsub pos 1) 0) (hay.getD pos 0) + 1) -
            t.hash (hash_fn (hay.getD (wsub pos 1) 0) (hay.getD pos 0)))).filter
        (bucketKeep t hay (pos + 1 - t.pat_len)
          (((hay.getD (pos + 1 - t.pat_len) 0) <<< 8) +
            hay.getD (pos + 2 - t.pat_len) 0)) := by
    unfold verifiedAt
    simp only []
    rw [hs1, hs2]
  have hbound : ∀ i, i ∈ List.range'
      (t.hash (hash_fn (hay.getD (wsub pos 1) 0) (hay.getD pos 0)))
      (t.hash (hash_fn (hay.getD (wsub pos 1) 0) (hay.getD pos 0) + 1) -
        t.hash (hash_fn (hay.getD (wsub pos 1) 0) (hay.getD pos 0))) →
      i < t.needles.length := by
    intro i hi
    rw [List.mem_range'] at hi
    obtain ⟨v, hva2, rfl⟩ := hi
    have h1 := hash_ub hnew (hash_fn (hay.getD (wsub pos 1) 0) (hay.getD pos 0))
    have h2 := hash_ub hnew (hash_fn (hay.getD (wsub pos 1) 0) (hay.getD pos 0) + 1)
    omega
  have hidx1 : (pos + 1 - t.pat_len) + (t.pat_len - 2) = pos - 1 := by omega
  have hidx2 : (pos + 1 - t.pat_len) + (t.pat_len - 1) = pos := by omega
  -- a verified candidate exists, so the shift entry at this position is 0
  have hz : t.shift (hash_fn (hay.getD (wsub pos 1) 0) (hay.getD pos 0)) = 0 := by
    rw [hva] at hv
    obtain ⟨i0, hi0⟩ := List.exists_mem_of_ne_nil _ hv
    rw [List.mem_filter] at hi0
    obtain ⟨hi0r, hi0k⟩ := hi0
    have hi0n : i0 < t.needles.length := hbound i0 hi0r
    have hm : (pat t i0).isPrefixOf (hay.drop (pos + 1 - t.pat_len)) = true :=
      ((Bool.and_eq_true _ _).mp hi0k).2
    have hcrit := matcher_crit hnew hi0n hm
    rw [hidx1, hidx2, ← hw1] at hcrit
    exact shift_zero_of_crit hnew hi0n hcrit
  have hpos1 : pos ≤ wsub hay.length 1 := by
    rw [wsub_len_pos (by omega)]
    omega
  have hix : wsub pos 1 < hay.length ∧ pos < hay.length := by
    rw [hw1]
    omega
  rw [hva]
  rw [findLoop, dif_pos hpos1, dif_pos hix]
  simp only []
  rw [dif_pos hz, hs1, hs2]
  have hab : pos + 1 - t.pat_len < hay.length ∧ pos + 2 - t.pat_len < hay.length :=
    ⟨by omega, by omega⟩
  rw [dif_pos hab]
  have hpair := List.pairwise_lt_range'
    (t.hash (hash_fn (hay.getD (wsub pos 1) 0) (hay.getD pos 0)))
    (t.hash (hash_fn (hay.getD (wsub pos 1) 0) (hay.getD pos 0) + 1) -
      t.hash (hash_fn (hay.getD (wsub pos 1) 0) (hay.getD pos 0))) 1
  cases hscan : scanBucket t hay (pos + 1 - t.pat_len)
      (((hay.getD (pos + 1 - t.pat_len) 0) <<< 8) + hay.getD (pos + 2 - t.pat_len) 0)
      (List.range' (t.hash (hash_fn (hay.getD (wsub pos 1) 0) (hay.getD pos 0)))
        (t.hash (hash_fn (hay.getD (wsub pos 1) 0) (hay.getD pos 0) + 1) -
          t.hash (hash_fn (hay.getD (wsub pos 1) 0) (hay.getD pos 0)))) none with
  | none =>
    exfalso
    unfold scanBucket at hscan
    rw [selScan_none_iff] at hscan
    rw [hva] at hv
    refine hv (List.filter_eq_nil_iff.mpr ?_)
    intro a ha
    rw [hscan a ha]
    simp
  | some c =>
    unfold scanBucket at hscan
    obtain ⟨hcr, hkc, hmin, hfirst⟩ := selScan_first_min _ c hpair hscan
    have hcn : c < t.needles.length := hbound c hcr
    have hmem := valid_mem hnew (needle_getD_mem hcn)
    refine ⟨c, List.mem_filter.mpr ⟨hcr, hkc⟩, ?_, ?_, hmem.1, hmem.2, rfl⟩
    · intro i hi
      rw [List.mem_filter] at hi
      exact hmin i hi.1 hi.2
    · intro i hi hic
      rw [List.mem_filter] at hi
      exact hfirst i hi.1 hi.2 hic

theorem C4_shortest_tie_break_witness :
    ∃ c ∈ verifiedAt abTable [97, 98, 99] 1,
      (∀ i ∈ verifiedAt abTable [97, 98, 99] 1,
        (pat abTable c).length ≤ (pat abTable i).length) ∧
      (∀ i ∈ verifiedAt abTable [97, 98, 99] 1, i < c →
        (pat abTable c).length < (pat abTable i).length) ∧
      pat_idx abTable c < abPats.length ∧
      abPats[pat_idx abTable c]? = some (pat abTable c) ∧
      findLoop abTable [97, 98, 99] 1 = .ok (some ⟨1 + 1 - abTable.pat_len,
        (1 + 1 - abTable.pat_len) + (pat abTable c).length, pat_idx abTable c⟩) :=
  @C4_shortest_tie_break abPats abTable [97, 98, 99] 1 rfl (by decide) (by decide)
    (by decide) (by decide)
